import Mathlib

/-!
Verification of the SnowFS core against its specification.

The development shallowly embeds the relevant source functions:
* `src/common` (chunked hasher): `getPartHash`, `calculateFileHash`,
  `compareFileHash`, `properNormalize`;
* `src/path.ts`: `normalize`;
* `src/ignore.ts`: `IgnoreManager.init` / `IgnoreManager.ignored`;
* `src/repository.ts`: `findCommitByHash`, checkout target resolution,
  the checkout mutation phase, `createCommit`, `getStatus`, `initExt`.

External primitives (Node `crypto`, Node `path`, JS `RegExp`, lodash) are
either taken as function parameters (hash digests, regex execution) or
modelled by explicit Lean definitions of their documented algorithms
(Node's POSIX `path.normalize`, `parseInt`).  Files are modelled as lists
of bytes, JS strings as Lean strings, and JS `undefined` as `Option`.
-/

deriving instance DecidableEq for Except

namespace SnowFS

/-! ## Chunked hasher (src/common, `part_000`) -/

/-- `MB100` from the source: the hash block size, 100 MB. -/
def MB100 : Nat := 100000000

/-- `MB20` from the source: the small-file threshold, 20 MB. -/
def MB20 : Nat := 20000000

/-- A file's contents as a list of bytes. -/
abbrev FileBytes := List Nat

/-- A `HashBlock` record.  The source field `end` is called `stop` here
(`end` is a Lean keyword); it is the inclusive end offset of the block. -/
structure HashBlock where
  hash : String
  start : Int
  stop : Int
  deriving Repr, DecidableEq

/-- The bytes a read stream delivers for inclusive range `[s, e]` of `f`
(`fs.createReadStream` with `start`/`end` options; `end` is inclusive). -/
def fileSlice (f : FileBytes) (s e : Nat) : FileBytes :=
  (f.drop s).take (e + 1 - s)

/-- Embedding of `getPartHash`.  `HB` abstracts the incremental sha256
hex digest over the streamed bytes (`crypto.createHash('sha256')` updated
with every chunk; the digest depends only on the byte sequence).  With no
range the whole file is streamed and `start = end = -1`. -/
def getPartHash (HB : FileBytes → String) (f : FileBytes)
    (range : Option (Nat × Nat)) : HashBlock :=
  match range with
  | none => { hash := HB f, start := -1, stop := -1 }
  | some (s, e) => { hash := HB (fileSlice f s e), start := s, stop := e }

/-- The block ranges computed by `calculateFileHash`/`compareFileHash`:
`divider = Math.ceil(size / MB100)` blocks `[i*MB100, (i+1)*MB100 - 1]`,
with the last block's end overwritten by `min(MB100*divider, size) - 1`. -/
def hashBlockRanges (size : Nat) : List (Nat × Nat) :=
  let divider := (size + (MB100 - 1)) / MB100
  (List.range divider).map fun i =>
    if i = divider - 1 then (i * MB100, min (MB100 * divider) size - 1)
    else (i * MB100, (i + 1) * MB100 - 1)

/-- Result record of `calculateFileHash`: `hashBlocks` is absent (`none`)
on the small-file fast path. -/
structure FileHashResult where
  filehash : String
  hashBlocks : Option (List HashBlock)
  deriving Repr, DecidableEq

/-- Embedding of `calculateFileHash`.  `HB` abstracts the sha256 hex
digest of a byte stream; `HS` abstracts the sha256 hex digest of a
character stream (the fold hash is updated with strings, and its digest
depends only on their concatenation).  Small files (`size < MB20`) are
hashed in one pass and carry no `hashBlocks`; large files are split into
`hashBlockRanges` blocks, each block is hashed, and the block hashes are
folded in index order (`hash.update(h.hash)`). -/
def calculateFileHash (HB : FileBytes → String) (HS : String → String)
    (f : FileBytes) : FileHashResult :=
  if f.length < MB20 then
    { filehash := (getPartHash HB f none).hash, hashBlocks := none }
  else
    let hashes := (hashBlockRanges f.length).map fun r => getPartHash HB f (some r)
    { filehash := HS (String.join (hashes.map HashBlock.hash))
      hashBlocks := some hashes }

/-- JS `Object.prototype.toString` applied to a plain `HashBlock` object
literal: the source's `compareFileHash` folds `hash.update(h.toString())`,
and `h.toString()` is the constant string `"[object Object]"`. -/
def hashBlockToString (_ : HashBlock) : String := "[object Object]"

/-- Embedding of `compareFileHash`.  Small files are re-hashed in one
pass and compared against `filehash`.  Large files are re-hashed per
block; if `hashBlocks` is supplied and any block hash differs at the same
index (JS `!==`, where an out-of-range index reads `undefined`), the
thrown `'hashblock different'` error is caught and the result is `false`.
Otherwise the fold digests `h.toString()` for every block — the literal
string `"[object Object]"` — and the digest is compared to `filehash`. -/
def compareFileHash (HB : FileBytes → String) (HS : String → String)
    (f : FileBytes) (filehash : String) (hashBlocks : Option (List String)) : Bool :=
  if f.length < MB20 then
    (getPartHash HB f none).hash == filehash
  else
    let hashes := (hashBlockRanges f.length).map fun r => getPartHash HB f (some r)
    let mismatch :=
      match hashBlocks with
      | none => false
      | some hb =>
        (List.range hashes.length).any fun i =>
          ((hashes.get? i).map HashBlock.hash) != hb.get? i
    if mismatch then false
    else filehash == HS (String.join (hashes.map hashBlockToString))

/-! ### Helper lemmas about the hasher -/

theorem foldl_append_length (l : List String) (a : String) :
    (l.foldl (· ++ ·) a).length = a.length + (l.map String.length).sum := by
  induction l generalizing a with
  | nil => simp
  | cons s rest ih =>
    simp only [List.foldl_cons, List.map_cons, List.sum_cons, ih]
    simp [String.length_append]
    omega

theorem stringJoin_length (l : List String) :
    (String.join l).length = (l.map String.length).sum := by
  simpa using foldl_append_length l ""

theorem hashBlockRanges_length (size : Nat) :
    (hashBlockRanges size).length = (size + (MB100 - 1)) / MB100 := by
  simp [hashBlockRanges]

theorem hashBlockRanges_length_pos (size : Nat) (h : MB20 ≤ size) :
    0 < (hashBlockRanges size).length := by
  rw [hashBlockRanges_length]
  apply Nat.div_pos
  · have : (0:Nat) < MB100 := by decide
    have : MB20 ≤ size := h
    simp only [MB100, MB20] at *
    omega
  · decide

/-! ### Claims about the hasher -/

/-- Claim C2: for every file strictly smaller than 20 MB, `hashFile`
(`calculateFileHash`) returns as `filehash` the hex sha256 of the whole
file's bytes in one pass (the abstract whole-stream digest `HB f`) and
the `hashBlocks` field is absent. -/
theorem calculateFileHash_small_file (HB : FileBytes → String) (HS : String → String)
    (f : FileBytes) (h : f.length < MB20) :
    (calculateFileHash HB HS f).filehash = HB f ∧
    (calculateFileHash HB HS f).hashBlocks = none := by
  constructor <;> simp [calculateFileHash, getPartHash, if_pos h]

/-- Witness for C2 at the one-byte file `[7]`. -/
theorem calculateFileHash_small_file_witness :
    ([(7:Nat)] : FileBytes).length < MB20 ∧
    ((calculateFileHash (fun _ => "x") id [7]).filehash = (fun (_ : FileBytes) => "x") [7] ∧
     (calculateFileHash (fun _ => "x") id [7]).hashBlocks = none) :=
  ⟨by decide, calculateFileHash_small_file (fun _ => "x") id [7] (by decide)⟩

/-- Claim C1 (code bug): the round trip
`compareFileHash(f, hashFile(f).filehash, hashFile(f).hashBlocks)` returns
`false` — not `true` — for every file of at least 20 MB.
`calculateFileHash` folds the lowercase-hex block hashes (64 characters
each) into the final digest, but `compareFileHash` folds
`h.toString()` = `"[object Object]"` (15 characters) for every block, so
for any injective digest function the compared hashes differ.  `HS`
injectivity models sha256 collision-freedom on the fold input; `hlen`
models that sha256 hex digests are 64 characters long. -/
theorem compareFileHash_roundtrip_large_false (HB : FileBytes → String) (HS : String → String)
    (f : FileBytes) (hbig : MB20 ≤ f.length)
    (hinj : Function.Injective HS)
    (hlen : ∀ bs : FileBytes, (HB bs).length = 64) :
    compareFileHash HB HS f (calculateFileHash HB HS f).filehash
      ((calculateFileHash HB HS f).hashBlocks.map (List.map HashBlock.hash)) = false := by
  have hnotsmall : ¬ f.length < MB20 := not_lt.mpr hbig
  simp only [compareFileHash, calculateFileHash, if_neg hnotsmall]
  set hashes := (hashBlockRanges f.length).map fun r => getPartHash HB f (some r) with hh
  have hmm : ((List.range hashes.length).any fun i =>
      ((hashes.get? i).map HashBlock.hash) != (hashes.map HashBlock.hash).get? i) = false := by
    rw [List.any_eq_false]
    intro i _
    simp [List.get?_map]
  simp only [Option.map_some', hmm, if_neg Bool.false_ne_true]
  have hlen1 : (String.join (hashes.map HashBlock.hash)).length = 64 * hashes.length := by
    rw [stringJoin_length]
    have hrep : List.map String.length (List.map HashBlock.hash hashes) =
        List.replicate hashes.length 64 := by
      rw [List.eq_replicate]
      refine ⟨by simp, ?_⟩
      intro x hx
      simp only [List.map_map, List.mem_map] at hx
      obtain ⟨b, hb, rfl⟩ := hx
      rw [hh] at hb
      simp only [List.mem_map] at hb
      obtain ⟨r, _, rfl⟩ := hb
      cases r with
      | mk s e => simp [getPartHash, hlen]
    rw [hrep, List.sum_replicate, smul_eq_mul, Nat.mul_comm]
  have hlen2 : (String.join (hashes.map hashBlockToString)).length = 15 * hashes.length := by
    rw [stringJoin_length]
    have hrep : List.map String.length (List.map hashBlockToString hashes) =
        List.replicate hashes.length 15 := by
      rw [List.eq_replicate]
      refine ⟨by simp, ?_⟩
      intro x hx
      simp only [List.map_map, List.mem_map] at hx
      obtain ⟨b, _, rfl⟩ := hx
      rfl
    rw [hrep, List.sum_replicate, smul_eq_mul, Nat.mul_comm]
  have hpos : 0 < hashes.length := by
    rw [hh, List.length_map]
    exact hashBlockRanges_length_pos f.length hbig
  have hne : String.join (hashes.map HashBlock.hash) ≠ String.join (hashes.map hashBlockToString) := by
    intro heq
    have := congrArg String.length heq
    rw [hlen1, hlen2] at this
    omega
  have : HS (String.join (hashes.map HashBlock.hash)) ≠ HS (String.join (hashes.map hashBlockToString)) :=
    fun h => hne (hinj h)
  simpa using this

/-- Witness for C1's failing input: a 20 MB all-zero file with `id` as the
fold digest and a constant 64-character block digest. -/
theorem compareFileHash_roundtrip_large_false_witness :
    MB20 ≤ (List.replicate MB20 (0:Nat) : FileBytes).length ∧
    compareFileHash (fun _ => String.mk (List.replicate 64 'a')) id
      (List.replicate MB20 (0:Nat))
      (calculateFileHash (fun _ => String.mk (List.replicate 64 'a')) id
        (List.replicate MB20 (0:Nat))).filehash
      ((calculateFileHash (fun _ => String.mk (List.replicate 64 'a')) id
        (List.replicate MB20 (0:Nat))).hashBlocks.map (List.map HashBlock.hash)) = false :=
  ⟨by simp, compareFileHash_roundtrip_large_false _ _ _ (by simp)
    Function.injective_id (fun _ => rfl)⟩

/-! ## Path utility (src/path.ts and `properNormalize` in src/common)

The source composes Node's platform `path.normalize` (forward-slash POSIX
flavour) with its own trailing-separator stripping.  `posixNormalize`
below models Node's documented `path.posix.normalize` algorithm: split on
`'/'`, drop empty and `'.'` segments, resolve `'..'` segments (kept at
the front only for relative paths), re-join, and re-attach the root and a
trailing separator.  Paths are lists of characters. -/

abbrev PathStr := List Char

/-- The `'..'` segment. -/
def dotdot : PathStr := ['.', '.']

/-- Split a path into its `'/'`-separated segments. -/
def splitSlash : PathStr → List PathStr
  | [] => [[]]
  | c :: cs =>
    if c = '/' then [] :: splitSlash cs
    else
      match splitSlash cs with
      | [] => [[c]]
      | s :: rest => (c :: s) :: rest

/-- Join segments with `'/'` separators. -/
def joinSegs : List PathStr → PathStr
  | [] => []
  | [s] => s
  | s :: rest => s ++ '/' :: joinSegs rest

/-- Node's `normalizeString` segment resolution: empty and `'.'`
segments are dropped; `'..'` pops the previous segment, and is kept
(stacked at the root) only when `aar` ("allow above root", i.e. the path
is relative) is set.  `stack` holds the emitted segments in reverse. -/
def procSegs (aar : Bool) : List PathStr → List PathStr → List PathStr
  | [], stack => stack.reverse
  | s :: rest, stack =>
    if s = [] ∨ s = ['.'] then procSegs aar rest stack
    else if s = dotdot then
      match stack with
      | [] => procSegs aar rest (if aar then [dotdot] else [])
      | t :: ts =>
        if t = dotdot then procSegs aar rest (if aar then dotdot :: stack else stack)
        else procSegs aar rest ts
    else procSegs aar rest (s :: stack)

/-- Model of Node's `path.posix.normalize`: empty input yields `"."`;
otherwise segments are resolved and the root / trailing separator of the
input are re-attached; a path that resolves to nothing yields `"/"`,
`"./"` or `"."`. -/
def posixNormalize (p : PathStr) : PathStr :=
  if p = [] then ['.']
  else
    let isAbs : Bool := p.head? == some '/'
    let trailing : Bool := p.getLast? == some '/'
    let res := procSegs (!isAbs) (splitSlash p) []
    let body := joinSegs res
    if body = [] then
      if isAbs then ['/']
      else if trailing then ['.', '/'] else ['.']
    else
      let body2 := if trailing then body ++ ['/'] else body
      if isAbs then '/' :: body2 else body2

/-- The `replace(/\\/g, '/')` step of `normalize` in src/path.ts. -/
def replaceBackslashes (p : PathStr) : PathStr :=
  p.map fun c => if c = '\\' then '/' else c

/-- Embedding of `normalize` from src/path.ts: `""` and `"."` map to
`""`; otherwise the platform-normalized, backslash-replaced path has one
trailing separator stripped unless it is the bare root `"/"`. -/
def normalize (p : PathStr) : PathStr :=
  if p = [] ∨ p = ['.'] then []
  else
    let q := replaceBackslashes (posixNormalize p)
    if q ≠ ['/'] ∧ q.getLast? = some '/' then q.dropLast else q

/-- Embedding of `properNormalize` from src/common: platform
normalization followed by stripping one trailing separator (with no
special case for the bare root). -/
def properNormalize (p : PathStr) : PathStr :=
  let q := posixNormalize p
  if q.getLast? = some '/' then q.dropLast else q

/-- Model of Node's `path.join` on two arguments: empty parts are
dropped, the rest is joined with `'/'` and normalized; joining nothing
yields `"."`. -/
def nodeJoin2 (a b : PathStr) : PathStr :=
  if a = [] ∧ b = [] then ['.']
  else if a = [] then posixNormalize b
  else if b = [] then posixNormalize a
  else posixNormalize (a ++ '/' :: b)

/-! ### Lemmas about splitting and joining path segments -/

theorem splitSlash_ne_nil (p : PathStr) : splitSlash p ≠ [] := by
  cases p with
  | nil => simp [splitSlash]
  | cons c cs =>
    simp only [splitSlash]
    by_cases h : c = '/'
    · simp [h]
    · rw [if_neg h]
      cases splitSlash cs <;> simp

theorem mem_splitSlash_no_slash (p : PathStr) : ∀ s ∈ splitSlash p, '/' ∉ s := by
  induction p with
  | nil =>
    intro s hs
    simp only [splitSlash, List.mem_singleton] at hs
    simp [hs]
  | cons c cs ih =>
    intro s hs
    simp only [splitSlash] at hs
    by_cases h : c = '/'
    · rw [if_pos h] at hs
      rcases List.mem_cons.mp hs with rfl | hs
      · simp
      · exact ih s hs
    · rw [if_neg h] at hs
      cases hsp : splitSlash cs with
      | nil => exact absurd hsp (splitSlash_ne_nil cs)
      | cons t rest =>
        rw [hsp] at hs
        rcases List.mem_cons.mp hs with rfl | hs
        · intro hmem
          rcases List.mem_cons.mp hmem with heq | hmem
          · exact h heq.symm
          · exact ih t (by rw [hsp]; exact List.mem_cons_self t rest) hmem
        · exact ih s (by rw [hsp]; exact List.mem_cons_of_mem t hs)

theorem mem_splitSlash_chars (p : PathStr) :
    ∀ s ∈ splitSlash p, ∀ c ∈ s, c ∈ p := by
  induction p with
  | nil =>
    intro s hs c hc
    simp only [splitSlash, List.mem_singleton] at hs
    subst hs
    simp at hc
  | cons a p ih =>
    intro s hs c hc
    simp only [splitSlash] at hs
    by_cases h : a = '/'
    · rw [if_pos h] at hs
      rcases List.mem_cons.mp hs with rfl | hs
      · simp at hc
      · exact List.mem_cons_of_mem a (ih s hs c hc)
    · rw [if_neg h] at hs
      cases hsp : splitSlash p with
      | nil => exact absurd hsp (splitSlash_ne_nil p)
      | cons t rest =>
        rw [hsp] at hs
        rcases List.mem_cons.mp hs with rfl | hs
        · rcases List.mem_cons.mp hc with rfl | hc
          · exact List.mem_cons_self c p
          · exact List.mem_cons_of_mem a
              (ih t (by rw [hsp]; exact List.mem_cons_self t rest) c hc)
        · exact List.mem_cons_of_mem a
            (ih s (by rw [hsp]; exact List.mem_cons_of_mem t hs) c hc)

theorem splitSlash_no_slash (s : PathStr) (h : '/' ∉ s) : splitSlash s = [s] := by
  induction s with
  | nil => rfl
  | cons c cs ih =>
    have hc : c ≠ '/' := fun hh => h (by simp [hh])
    have hcs : '/' ∉ cs := fun hh => h (List.mem_cons_of_mem _ hh)
    simp only [splitSlash, if_neg hc, ih hcs]

theorem splitSlash_append (s t : PathStr) (h : '/' ∉ s) :
    splitSlash (s ++ '/' :: t) = s :: splitSlash t := by
  induction s with
  | nil => simp [splitSlash]
  | cons c cs ih =>
    have hc : c ≠ '/' := fun hh => h (by simp [hh])
    have hcs : '/' ∉ cs := fun hh => h (List.mem_cons_of_mem _ hh)
    simp only [List.cons_append, splitSlash, if_neg hc]
    rw [List.append_eq, ih hcs]

theorem splitSlash_joinSegs (segs : List PathStr) (hne : segs ≠ [])
    (hs : ∀ s ∈ segs, '/' ∉ s) : splitSlash (joinSegs segs) = segs := by
  induction segs with
  | nil => cases hne rfl
  | cons s rest ih =>
    cases rest with
    | nil => exact splitSlash_no_slash s (hs s (by simp))
    | cons t r =>
      rw [show joinSegs (s :: t :: r) = s ++ '/' :: joinSegs (t :: r) from rfl,
        splitSlash_append s _ (hs s (by simp)),
        ih (by simp) (fun u hu => hs u (List.mem_cons_of_mem s hu))]

theorem joinSegs_ne_nil (res : List PathStr) (hne : res ≠ [])
    (h0 : ∀ s ∈ res, s ≠ []) : joinSegs res ≠ [] := by
  cases res with
  | nil => cases hne rfl
  | cons s rest =>
    cases rest with
    | nil => exact h0 s (by simp)
    | cons t r =>
      rw [show joinSegs (s :: t :: r) = s ++ '/' :: joinSegs (t :: r) from rfl]
      simp

theorem joinSegs_head_ne_slash (res : List PathStr) (hne : res ≠ [])
    (h : ∀ s ∈ res, s ≠ [] ∧ '/' ∉ s) : (joinSegs res).head? ≠ some '/' := by
  cases res with
  | nil => cases hne rfl
  | cons s rest =>
    obtain ⟨h1, h2⟩ := h s (by simp)
    cases s with
    | nil => cases h1 rfl
    | cons c cs =>
      have hc : c ≠ '/' := fun hh => h2 (by simp [hh])
      cases rest with
      | nil =>
        intro hco
        rw [show joinSegs [c :: cs] = c :: cs from rfl] at hco
        exact hc (by simpa using hco)
      | cons t r =>
        intro hco
        rw [show joinSegs ((c :: cs) :: t :: r) =
          (c :: cs) ++ '/' :: joinSegs (t :: r) from rfl] at hco
        exact hc (by simpa using hco)

theorem mem_of_getLast?_eq {α : Type} {l : List α} {a : α}
    (h : l.getLast? = some a) : a ∈ l := by
  have hmem : a ∈ l.getLast? := by rw [h]; rfl
  obtain ⟨hne, rfl⟩ := List.mem_getLast?_eq_getLast hmem
  exact List.getLast_mem hne

theorem joinSegs_getLast_ne_slash (res : List PathStr) (hne : res ≠ [])
    (h : ∀ s ∈ res, s ≠ [] ∧ '/' ∉ s) : (joinSegs res).getLast? ≠ some '/' := by
  induction res with
  | nil => cases hne rfl
  | cons s rest ih =>
    cases rest with
    | nil =>
      obtain ⟨h1, h2⟩ := h s (by simp)
      show s.getLast? ≠ some '/'
      intro hco
      exact h2 (mem_of_getLast?_eq hco)
    | cons t r =>
      rw [show joinSegs (s :: t :: r) = s ++ '/' :: joinSegs (t :: r) from rfl,
        List.getLast?_append_cons]
      have hjoin : joinSegs (t :: r) ≠ [] :=
        joinSegs_ne_nil _ (by simp) (fun u hu => (h u (List.mem_cons_of_mem s hu)).1)
      cases hj : joinSegs (t :: r) with
      | nil => exact absurd hj hjoin
      | cons u us =>
        rw [List.getLast?_cons_cons, ← hj]
        exact ih (by simp) (fun u hu => h u (List.mem_cons_of_mem s hu))

theorem mem_joinSegs (res : List PathStr) :
    ∀ c ∈ joinSegs res, c = '/' ∨ ∃ s ∈ res, c ∈ s := by
  induction res with
  | nil => intro c hc; simp [joinSegs] at hc
  | cons s rest ih =>
    cases rest with
    | nil =>
      intro c hc
      exact Or.inr ⟨s, by simp, hc⟩
    | cons t r =>
      intro c hc
      rw [show joinSegs (s :: t :: r) = s ++ '/' :: joinSegs (t :: r) from rfl] at hc
      rcases List.mem_append.mp hc with hc | hc
      · exact Or.inr ⟨s, by simp, hc⟩
      · rcases List.mem_cons.mp hc with rfl | hc
        · exact Or.inl rfl
        · rcases ih c hc with hcs | ⟨u, hu, hcu⟩
          · exact Or.inl hcs
          · exact Or.inr ⟨u, List.mem_cons_of_mem s hu, hcu⟩

/-! ### Lemmas about segment resolution -/

theorem procSegs_nil_seg (aar : Bool) (segs : List PathStr) (stack : List PathStr) :
    procSegs aar ([] :: segs) stack = procSegs aar segs stack := by
  simp [procSegs]

theorem procSegs_nondots (aar : Bool) (rest : List PathStr) (stack : List PathStr)
    (h : ∀ s ∈ rest, s ≠ [] ∧ s ≠ ['.'] ∧ s ≠ dotdot) :
    procSegs aar rest stack = stack.reverse ++ rest := by
  induction rest generalizing stack with
  | nil => simp [procSegs]
  | cons s r ih =>
    obtain ⟨h1, h2, h3⟩ := h s (by simp)
    have hstep : procSegs aar (s :: r) stack = procSegs aar r (s :: stack) := by
      simp [procSegs, h1, h2, h3]
    rw [hstep, ih _ (fun t ht => h t (List.mem_cons_of_mem s ht))]
    simp

theorem procSegs_dots (k : Nat) (rest : List PathStr) (j : Nat) :
    procSegs true (List.replicate k dotdot ++ rest) (List.replicate j dotdot) =
      procSegs true rest (List.replicate (k + j) dotdot) := by
  induction k generalizing j with
  | zero => simp
  | succ k ih =>
    rw [List.replicate_succ, List.cons_append]
    have hstep : procSegs true (dotdot :: (List.replicate k dotdot ++ rest))
        (List.replicate j dotdot) =
        procSegs true (List.replicate k dotdot ++ rest) (List.replicate (j + 1) dotdot) := by
      cases j with
      | zero => simp [procSegs, dotdot]
      | succ j' =>
        rw [List.replicate_succ]
        simp [procSegs, dotdot, List.replicate_succ]
    rw [hstep, ih (j + 1)]
    have : k + (j + 1) = k + 1 + j := by omega
    rw [this]

theorem procSegs_fix (aar : Bool) (k : Nat) (rest : List PathStr)
    (hrest : ∀ s ∈ rest, s ≠ [] ∧ s ≠ ['.'] ∧ s ≠ dotdot)
    (hk : aar = false → k = 0) :
    procSegs aar (List.replicate k dotdot ++ rest) [] =
      List.replicate k dotdot ++ rest := by
  cases aar with
  | false =>
    rw [hk rfl]
    simpa using procSegs_nondots false rest [] hrest
  | true =>
    have h0 : procSegs true (List.replicate k dotdot ++ rest) [] =
        procSegs true rest (List.replicate k dotdot) := by
      have := procSegs_dots k rest 0
      simpa using this
    rw [h0, procSegs_nondots true rest _ hrest, List.reverse_replicate]

theorem procSegs_cons_skip (aar : Bool) (s : PathStr) (rest stack : List PathStr)
    (h : s = [] ∨ s = ['.']) :
    procSegs aar (s :: rest) stack = procSegs aar rest stack := by
  simp [procSegs, h]

theorem procSegs_cons_push (aar : Bool) (s : PathStr) (rest stack : List PathStr)
    (h1 : s ≠ []) (h2 : s ≠ ['.']) (h3 : s ≠ dotdot) :
    procSegs aar (s :: rest) stack = procSegs aar rest (s :: stack) := by
  simp [procSegs, h1, h2, h3]

theorem procSegs_cons_dotdot_pop (aar : Bool) (rest : List PathStr)
    (t : PathStr) (ts : List PathStr) (ht : t ≠ dotdot) :
    procSegs aar (dotdot :: rest) (t :: ts) = procSegs aar rest ts := by
  have h1 : ¬ (dotdot = [] ∨ dotdot = ['.']) := by decide
  simp only [procSegs, if_neg h1, if_pos rfl, if_neg ht]
  simp

theorem procSegs_cons_dotdot_nil (aar : Bool) (rest : List PathStr) :
    procSegs aar (dotdot :: rest) [] =
      procSegs aar rest (if aar then [dotdot] else []) := by
  have h1 : ¬ (dotdot = [] ∨ dotdot = ['.']) := by decide
  simp only [procSegs, if_neg h1, if_pos rfl]
  simp

theorem procSegs_cons_dotdot_dot (aar : Bool) (rest ts : List PathStr) :
    procSegs aar (dotdot :: rest) (dotdot :: ts) =
      procSegs aar rest (if aar then dotdot :: dotdot :: ts else dotdot :: ts) := by
  have h1 : ¬ (dotdot = [] ∨ dotdot = ['.']) := by decide
  simp only [procSegs, if_neg h1, if_pos rfl]
  simp

theorem procSegs_shape (aar : Bool) (segs : List PathStr) :
    ∀ (fr : List PathStr) (k : Nat), dotdot ∉ fr →
    (∀ s ∈ fr, s ≠ [] ∧ s ≠ ['.']) → (aar = false → k = 0) →
    ∃ (fr' : List PathStr) (k' : Nat),
      procSegs aar segs (fr ++ List.replicate k dotdot) =
        List.replicate k' dotdot ++ fr'.reverse ∧
      dotdot ∉ fr' ∧ (∀ s ∈ fr', s ≠ [] ∧ s ≠ ['.']) ∧ (aar = false → k' = 0) ∧
      (∀ s ∈ fr', s ∈ segs ∨ s ∈ fr) := by
  induction segs with
  | nil =>
    intro fr k hfr hfr2 hk
    refine ⟨fr, k, ?_, hfr, hfr2, hk, fun s hs => Or.inr hs⟩
    simp [procSegs, List.reverse_append, List.reverse_replicate]
  | cons s rest ih =>
    intro fr k hfr hfr2 hk
    by_cases h1 : s = [] ∨ s = ['.']
    · rw [procSegs_cons_skip aar s rest _ h1]
      obtain ⟨fr', k', heq, a, b, c, d⟩ := ih fr k hfr hfr2 hk
      exact ⟨fr', k', heq, a, b, c,
        fun t ht => (d t ht).imp (List.mem_cons_of_mem s) id⟩
    · push_neg at h1
      by_cases h2 : s = dotdot
      · subst h2
        cases fr with
        | cons f0 fr1 =>
          have hf0 : f0 ≠ dotdot := fun hh => hfr (hh ▸ List.mem_cons_self f0 fr1)
          rw [List.cons_append, procSegs_cons_dotdot_pop aar rest f0 _ hf0]
          obtain ⟨fr', k', heq, a, b, c, d⟩ := ih fr1 k
            (fun hh => hfr (List.mem_cons_of_mem f0 hh))
            (fun t ht => hfr2 t (List.mem_cons_of_mem f0 ht)) hk
          exact ⟨fr', k', heq, a, b, c,
            fun t ht => (d t ht).imp (List.mem_cons_of_mem dotdot)
              (List.mem_cons_of_mem f0)⟩
        | nil =>
          cases k with
          | zero =>
            rw [List.nil_append, List.replicate_zero, procSegs_cons_dotdot_nil]
            by_cases haar : aar = true
            · rw [if_pos haar]
              obtain ⟨fr', k', heq, a, b, c, d⟩ := ih [] 1 (by simp) (by simp)
                (fun hh => absurd haar (by simp [hh]))
              rw [List.nil_append] at heq
              refine ⟨fr', k', ?_, a, b, c,
                fun t ht => (d t ht).imp (List.mem_cons_of_mem dotdot)
                  (fun hh => by simp at hh)⟩
              simpa using heq
            · rw [if_neg haar]
              obtain ⟨fr', k', heq, a, b, c, d⟩ := ih [] 0 (by simp) (by simp)
                (fun _ => rfl)
              rw [List.nil_append, List.replicate_zero] at heq
              exact ⟨fr', k', heq, a, b, c,
                fun t ht => (d t ht).imp (List.mem_cons_of_mem dotdot)
                  (fun hh => by simp at hh)⟩
          | succ k0 =>
            have haar : aar = true := by
              cases aar with
              | true => rfl
              | false => exact absurd (hk rfl) (by omega)
            subst haar
            rw [List.nil_append, List.replicate_succ, procSegs_cons_dotdot_dot,
              if_pos rfl]
            obtain ⟨fr', k', heq, a, b, c, d⟩ := ih [] (k0 + 2) (by simp) (by simp)
              (fun hh => by cases hh)
            rw [List.nil_append] at heq
            refine ⟨fr', k', ?_, a, b, c,
              fun t ht => (d t ht).imp (List.mem_cons_of_mem dotdot)
                (fun hh => by simp at hh)⟩
            rw [← heq]
            congr 1
      · rw [procSegs_cons_push aar s rest _ h1.1 h1.2 h2, ← List.cons_append]
        obtain ⟨fr', k', heq, a, b, c, d⟩ := ih (s :: fr) k
          (fun hh => (List.mem_cons.mp hh).elim (fun he => h2 he.symm) hfr)
          (fun t ht => (List.mem_cons.mp ht).elim
            (fun he => he ▸ ⟨h1.1, h1.2⟩) (hfr2 t)) hk
        refine ⟨fr', k', heq, a, b, c, fun t ht => ?_⟩
        rcases d t ht with hts | htf
        · exact Or.inl (List.mem_cons_of_mem s hts)
        · rcases List.mem_cons.mp htf with rfl | htf
          · exact Or.inl (List.mem_cons_self t rest)
          · exact Or.inr htf

theorem mem_procSegs (aar : Bool) (segs : List PathStr) :
    ∀ (stack : List PathStr) (s : PathStr), s ∈ procSegs aar segs stack →
      s ∈ stack ∨ s = dotdot ∨ s ∈ segs := by
  induction segs with
  | nil =>
    intro stack s hs
    rw [show procSegs aar [] stack = stack.reverse from rfl] at hs
    exact Or.inl (List.mem_reverse.mp hs)
  | cons a rest ih =>
    intro stack s hs
    by_cases h1 : a = [] ∨ a = ['.']
    · rw [procSegs_cons_skip aar a rest stack h1] at hs
      rcases ih stack s hs with h | h | h
      · exact Or.inl h
      · exact Or.inr (Or.inl h)
      · exact Or.inr (Or.inr (List.mem_cons_of_mem a h))
    · push_neg at h1
      by_cases h2 : a = dotdot
      · subst h2
        cases stack with
        | nil =>
          rw [procSegs_cons_dotdot_nil] at hs
          rcases ih _ s hs with h | h | h
          · cases aar with
            | true =>
              rw [if_pos rfl] at h
              exact Or.inr (Or.inl (by simpa using h))
            | false => simp at h
          · exact Or.inr (Or.inl h)
          · exact Or.inr (Or.inr (List.mem_cons_of_mem dotdot h))
        | cons t ts =>
          by_cases ht : t = dotdot
          · subst ht
            rw [procSegs_cons_dotdot_dot] at hs
            rcases ih _ s hs with h | h | h
            · cases aar with
              | true =>
                rw [if_pos rfl] at h
                rcases List.mem_cons.mp h with rfl | h
                · exact Or.inr (Or.inl rfl)
                · exact Or.inl h
              | false =>
                rw [if_neg (by simp)] at h
                exact Or.inl h
            · exact Or.inr (Or.inl h)
            · exact Or.inr (Or.inr (List.mem_cons_of_mem dotdot h))
          · rw [procSegs_cons_dotdot_pop aar rest t ts ht] at hs
            rcases ih ts s hs with h | h | h
            · exact Or.inl (List.mem_cons_of_mem t h)
            · exact Or.inr (Or.inl h)
            · exact Or.inr (Or.inr (List.mem_cons_of_mem dotdot h))
      · rw [procSegs_cons_push aar a rest stack h1.1 h1.2 h2] at hs
        rcases ih _ s hs with h | h | h
        · rcases List.mem_cons.mp h with rfl | h
          · exact Or.inr (Or.inr (List.mem_cons_self s rest))
          · exact Or.inl h
        · exact Or.inr (Or.inl h)
        · exact Or.inr (Or.inr (List.mem_cons_of_mem a h))

theorem mem_res_chars (aar : Bool) (p : PathStr) :
    ∀ s ∈ procSegs aar (splitSlash p) [], ∀ c ∈ s, c ∈ p ∨ c = '.' := by
  intro s hs c hc
  rcases mem_procSegs aar (splitSlash p) [] s hs with h | h | h
  · simp at h
  · subst h
    rcases List.mem_cons.mp hc with rfl | hc
    · exact Or.inr rfl
    · exact Or.inr (by simpa using hc)
  · exact Or.inl (mem_splitSlash_chars p s h c hc)

theorem mem_body_chars (aar : Bool) (p : PathStr) :
    ∀ c ∈ joinSegs (procSegs aar (splitSlash p) []), c ∈ p ∨ c = '/' ∨ c = '.' := by
  intro c hc
  rcases mem_joinSegs _ c hc with rfl | ⟨s, hs, hcs⟩
  · exact Or.inr (Or.inl rfl)
  · rcases mem_res_chars aar p s hs c hcs with h | h
    · exact Or.inl h
    · exact Or.inr (Or.inr h)

/-- Definitional unfolding of `posixNormalize` for a nonempty input. -/
theorem posixNormalize_spec (p : PathStr) (hp : p ≠ []) :
    posixNormalize p =
      (if joinSegs (procSegs (!(p.head? == some '/')) (splitSlash p) []) = [] then
        if p.head? == some '/' then ['/']
        else if p.getLast? == some '/' then ['.', '/'] else ['.']
      else
        if p.head? == some '/' then
          '/' :: (if p.getLast? == some '/'
            then joinSegs (procSegs (!(p.head? == some '/')) (splitSlash p) []) ++ ['/']
            else joinSegs (procSegs (!(p.head? == some '/')) (splitSlash p) []))
        else
          (if p.getLast? == some '/'
            then joinSegs (procSegs (!(p.head? == some '/')) (splitSlash p) []) ++ ['/']
            else joinSegs (procSegs (!(p.head? == some '/')) (splitSlash p) []))) := by
  rw [posixNormalize, if_neg hp]

theorem posixNormalize_chars (p : PathStr) :
    ∀ c ∈ posixNormalize p, c ∈ p ∨ c = '/' ∨ c = '.' := by
  intro c hc
  by_cases hp : p = []
  · subst hp
    rw [show posixNormalize [] = ['.'] from rfl] at hc
    exact Or.inr (Or.inr (by simpa using hc))
  · rw [posixNormalize_spec p hp] at hc
    split_ifs at hc with h1 h2 h3 h4 h5 h6
    · exact Or.inr (Or.inl (by simpa using hc))
    · rcases List.mem_cons.mp hc with rfl | hc
      · exact Or.inr (Or.inr rfl)
      · exact Or.inr (Or.inl (by simpa using hc))
    · exact Or.inr (Or.inr (by simpa using hc))
    · rcases List.mem_cons.mp hc with rfl | hc
      · exact Or.inr (Or.inl rfl)
      · rcases List.mem_append.mp hc with hc | hc
        · exact mem_body_chars _ p c hc
        · exact Or.inr (Or.inl (by simpa using hc))
    · rcases List.mem_cons.mp hc with rfl | hc
      · exact Or.inr (Or.inl rfl)
      · exact mem_body_chars _ p c hc
    · rcases List.mem_append.mp hc with hc | hc
      · exact mem_body_chars _ p c hc
      · exact Or.inr (Or.inl (by simpa using hc))
    · exact mem_body_chars _ p c hc

theorem replaceBackslashes_eq_self (l : PathStr) (h : '\\' ∉ l) :
    replaceBackslashes l = l := by
  induction l with
  | nil => rfl
  | cons c cs ih =>
    have hc : c ≠ '\\' := fun hh => h (by simp [hh])
    have hcs : '\\' ∉ cs := fun hh => h (List.mem_cons_of_mem _ hh)
    simp only [replaceBackslashes, List.map_cons, if_neg hc]
    rw [show List.map (fun c => if c = '\\' then '/' else c) cs =
      replaceBackslashes cs from rfl, ih hcs]

/-- A resolved segment list joined and re-rooted is a fixpoint of
`posixNormalize`. -/
theorem posixNormalize_fix (isAbs : Bool) (k : Nat) (rest : List PathStr)
    (hrest : ∀ s ∈ rest, s ≠ [] ∧ s ≠ ['.'] ∧ s ≠ dotdot ∧ '/' ∉ s)
    (hk : isAbs = true → k = 0)
    (hne : List.replicate k dotdot ++ rest ≠ []) :
    posixNormalize (if isAbs then '/' :: joinSegs (List.replicate k dotdot ++ rest)
      else joinSegs (List.replicate k dotdot ++ rest)) =
      (if isAbs then '/' :: joinSegs (List.replicate k dotdot ++ rest)
        else joinSegs (List.replicate k dotdot ++ rest)) := by
  set res := List.replicate k dotdot ++ rest with hres
  have hall : ∀ s ∈ res, s ≠ [] ∧ '/' ∉ s := by
    intro s hs
    rcases List.mem_append.mp hs with hs | hs
    · have hdd : s = dotdot := List.eq_of_mem_replicate hs
      subst hdd
      exact ⟨by decide, by decide⟩
    · exact ⟨(hrest s hs).1, (hrest s hs).2.2.2⟩
  have hbody : joinSegs res ≠ [] := joinSegs_ne_nil res hne (fun s hs => (hall s hs).1)
  have hhead : (joinSegs res).head? ≠ some '/' := joinSegs_head_ne_slash res hne hall
  have hlast : (joinSegs res).getLast? ≠ some '/' := joinSegs_getLast_ne_slash res hne hall
  have hsplit : splitSlash (joinSegs res) = res :=
    splitSlash_joinSegs res hne (fun s hs => (hall s hs).2)
  have hfix : ∀ aar2 : Bool, (aar2 = false → k = 0) → procSegs aar2 res [] = res :=
    fun aar2 hk2 => procSegs_fix aar2 k rest
      (fun s hs => ⟨(hrest s hs).1, (hrest s hs).2.1, (hrest s hs).2.2.1⟩) hk2
  cases isAbs with
  | false =>
    show posixNormalize (joinSegs res) = joinSegs res
    rw [posixNormalize_spec _ hbody]
    have habs : ((joinSegs res).head? == some '/') = false :=
      beq_eq_false_iff_ne.mpr hhead
    have htr : ((joinSegs res).getLast? == some '/') = false :=
      beq_eq_false_iff_ne.mpr hlast
    rw [habs, htr, hsplit]
    simp only [Bool.not_false]
    rw [hfix true (fun h => by cases h), if_neg hbody]
    simp
  | true =>
    show posixNormalize ('/' :: joinSegs res) = '/' :: joinSegs res
    rw [posixNormalize_spec _ (by simp)]
    have habs : (('/' :: joinSegs res).head? == some '/') = true := by simp
    have hlast2 : ('/' :: joinSegs res).getLast? = (joinSegs res).getLast? := by
      cases hb : joinSegs res with
      | nil => exact absurd hb hbody
      | cons b bs => exact List.getLast?_cons_cons
    have htr : (('/' :: joinSegs res).getLast? == some '/') = false := by
      rw [hlast2]
      exact beq_eq_false_iff_ne.mpr hlast
    have hsplit2 : splitSlash ('/' :: joinSegs res) = [] :: splitSlash (joinSegs res) := by
      simp [splitSlash]
    rw [habs, htr, hsplit2, hsplit]
    simp only [Bool.not_true]
    rw [procSegs_nil_seg, hfix false (fun _ => hk rfl), if_neg hbody]
    simp

/-- Definitional unfolding of `normalize` outside the special cases. -/
theorem normalize_spec (p : PathStr) (hp : ¬ (p = [] ∨ p = ['.'])) :
    normalize p =
      (if replaceBackslashes (posixNormalize p) ≠ ['/'] ∧
          (replaceBackslashes (posixNormalize p)).getLast? = some '/'
        then (replaceBackslashes (posixNormalize p)).dropLast
        else replaceBackslashes (posixNormalize p)) := by
  rw [normalize, if_neg hp]

/-- Stripping one trailing separator from a possibly-trailing form
recovers the unsuffixed path. -/
theorem strip_helper (r : PathStr) (t : Bool) (hr : r ≠ [])
    (hrne : r ≠ ['/']) (hlast : r.getLast? ≠ some '/') :
    (if (if t then r ++ ['/'] else r) ≠ ['/'] ∧
        (if t then r ++ ['/'] else r).getLast? = some '/'
      then (if t then r ++ ['/'] else r).dropLast
      else (if t then r ++ ['/'] else r)) = r := by
  cases t with
  | false =>
    simp only [Bool.false_eq_true, if_false]
    rw [if_neg (fun h => hlast h.2)]
  | true =>
    simp only [if_true]
    have h1 : r ++ ['/'] ≠ ['/'] := by
      intro h
      apply hr
      have hlen := congrArg List.length h
      simp at hlen
      exact hlen
    have h2 : (r ++ ['/']).getLast? = some '/' := by
      rw [List.getLast?_append_of_ne_nil _ (by simp)]
      rfl
    rw [if_pos ⟨h1, h2⟩]
    simp

/-- Master analysis of `normalize` for backslash-free input: away from
the troublesome `"."` output, `normalize` is idempotent, and its result
never ends in a separator unless it is the bare root. -/
theorem normalize_fix (p : PathStr) (hnb : '\\' ∉ p) :
    (normalize p ≠ ['.'] → normalize (normalize p) = normalize p) ∧
    (normalize p ≠ ['/'] → (normalize p).getLast? ≠ some '/') := by
  by_cases hp : p = [] ∨ p = ['.']
  · have h0 : normalize p = [] := by rw [normalize, if_pos hp]
    rw [h0]
    exact ⟨fun _ => rfl, fun _ => by simp⟩
  · have hq0 : '\\' ∉ posixNormalize p := by
      intro hmem
      rcases posixNormalize_chars p '\\' hmem with h | h | h
      · exact hnb h
      · exact absurd h (by decide)
      · exact absurd h (by decide)
    have hrepl := replaceBackslashes_eq_self _ hq0
    have hpne : p ≠ [] := fun h => hp (Or.inl h)
    obtain ⟨fr', k', heq, hnd, hprops, hkk, hmem⟩ :=
      procSegs_shape (!(p.head? == some '/')) (splitSlash p) [] 0 (by simp) (by simp)
        (fun _ => rfl)
    simp only [List.replicate_zero, List.append_nil, List.nil_append] at heq
    have hrest : ∀ s ∈ fr'.reverse, s ≠ [] ∧ s ≠ ['.'] ∧ s ≠ dotdot ∧ '/' ∉ s := by
      intro s hs
      rw [List.mem_reverse] at hs
      refine ⟨(hprops s hs).1, (hprops s hs).2, fun hdd => hnd (hdd ▸ hs), ?_⟩
      rcases hmem s hs with h | h
      · exact mem_splitSlash_no_slash p s h
      · simp at h
    have hkk2 : (p.head? == some '/') = true → k' = 0 := by
      intro h
      exact hkk (by rw [h]; rfl)
    set res := procSegs (!(p.head? == some '/')) (splitSlash p) [] with hres_def
    by_cases hbody : joinSegs res = []
    · -- the resolved body is empty: the output is "/", "./" or "."
      have hXspec := posixNormalize_spec p hpne
      rw [← hres_def, if_pos hbody] at hXspec
      by_cases habs : (p.head? == some '/') = true
      · rw [if_pos habs] at hXspec
        have hn : normalize p = ['/'] := by
          rw [normalize_spec p hp, hXspec]
          decide
        rw [hn]
        refine ⟨fun _ => by decide, fun hne2 => absurd rfl hne2⟩
      · rw [if_neg habs] at hXspec
        by_cases htr : (p.getLast? == some '/') = true
        · rw [if_pos htr] at hXspec
          have hn : normalize p = ['.'] := by
            rw [normalize_spec p hp, hXspec]
            decide
          rw [hn]
          exact ⟨fun h => absurd rfl h, fun _ => by decide⟩
        · rw [if_neg htr] at hXspec
          have hn : normalize p = ['.'] := by
            rw [normalize_spec p hp, hXspec]
            decide
          rw [hn]
          exact ⟨fun h => absurd rfl h, fun _ => by decide⟩
    · -- nonempty resolved body
      have hresne : res ≠ [] := fun h => hbody (by rw [h]; rfl)
      have hall : ∀ s ∈ res, s ≠ [] ∧ '/' ∉ s := by
        intro s hs
        rw [heq] at hs
        rcases List.mem_append.mp hs with hs | hs
        · have hdd : s = dotdot := List.eq_of_mem_replicate hs
          subst hdd
          exact ⟨by decide, by decide⟩
        · exact ⟨(hrest s hs).1, (hrest s hs).2.2.2⟩
      have hlast : (joinSegs res).getLast? ≠ some '/' :=
        joinSegs_getLast_ne_slash res hresne hall
      have hXspec := posixNormalize_spec p hpne
      rw [← hres_def, if_neg hbody] at hXspec
      have hXspec2 : posixNormalize p =
          (if (p.getLast? == some '/') = true
            then (if (p.head? == some '/') = true
              then '/' :: joinSegs res else joinSegs res) ++ ['/']
            else (if (p.head? == some '/') = true
              then '/' :: joinSegs res else joinSegs res)) := by
        rw [hXspec]
        by_cases habs : (p.head? == some '/') = true <;>
          by_cases htr : (p.getLast? == some '/') = true <;>
            simp [habs, htr]
      have hrne : (if (p.head? == some '/') = true
          then '/' :: joinSegs res else joinSegs res) ≠ [] := by
        by_cases habs : (p.head? == some '/') = true <;> simp [habs, hbody]
      have hrlast : (if (p.head? == some '/') = true
          then '/' :: joinSegs res else joinSegs res).getLast? ≠ some '/' := by
        by_cases habs : (p.head? == some '/') = true
        · rw [if_pos habs]
          cases hb : joinSegs res with
          | nil => exact absurd hb hbody
          | cons b bs =>
            rw [List.getLast?_cons_cons, ← hb]
            exact hlast
        · rw [if_neg habs]
          exact hlast
      have hrslash : (if (p.head? == some '/') = true
          then '/' :: joinSegs res else joinSegs res) ≠ ['/'] := by
        by_cases habs : (p.head? == some '/') = true
        · rw [if_pos habs]
          intro h
          exact hbody (by simpa using h)
        · rw [if_neg habs]
          intro h
          exact hlast (by rw [h]; rfl)
      have hn : normalize p =
          (if (p.head? == some '/') = true
            then '/' :: joinSegs res else joinSegs res) := by
        rw [normalize_spec p hp, hrepl, hXspec2]
        exact strip_helper _ (p.getLast? == some '/') hrne hrslash hrlast
      rw [hn]
      refine ⟨fun hdot => ?_, fun _ => hrlast⟩
      have hrdot : (if (p.head? == some '/') = true
          then '/' :: joinSegs res else joinSegs res) ≠ ['.'] := hn ▸ hdot
      have hfixr : posixNormalize (if (p.head? == some '/') = true
          then '/' :: joinSegs res else joinSegs res) =
          (if (p.head? == some '/') = true
            then '/' :: joinSegs res else joinSegs res) := by
        rw [heq]
        exact posixNormalize_fix (p.head? == some '/') k' fr'.reverse hrest hkk2
          (heq ▸ hresne)
      have hnbr : '\\' ∉ (if (p.head? == some '/') = true
          then '/' :: joinSegs res else joinSegs res) := by
        intro hmem2
        apply hq0
        rw [hXspec2]
        by_cases htr : (p.getLast? == some '/') = true
        · rw [if_pos htr]
          exact List.mem_append_left _ hmem2
        · rw [if_neg htr]
          exact hmem2
      rw [normalize_spec _ (by push_neg; exact ⟨hrne, hrdot⟩), hfixr,
        replaceBackslashes_eq_self _ hnbr, if_neg (fun h => hrlast h.2)]

/-! ## `Repository.initExt` commondir setup (src/repository.ts) -/

/-- The observable outcome of `initExt`'s commondir setup: whether the
commondir is external, the contents written to the `<workdir>/.snow`
file (when external), and the final `opts.commondir`. -/
structure InitExtOutcome where
  commondirOutside : Bool
  snowFileContents : Option PathStr
  commondir : PathStr
  deriving Repr, DecidableEq

/-- Embedding of the commondir handling of `Repository.initExt`: when
`opts.commondir` is supplied it is rejected if
`properNormalize(opts.commondir).startsWith(properNormalize(workdir))`,
and otherwise `<workdir>/.snow` is written as a file holding the
commondir path; when absent, `opts.commondir` becomes
`join(workdir, '.snow')`. -/
def initExtSetup (workdir : PathStr) (commondirOpt : Option PathStr) :
    Except String InitExtOutcome :=
  match commondirOpt with
  | some cd =>
    if (properNormalize workdir).isPrefixOf (properNormalize cd) then
      Except.error "commondir must be outside repository"
    else
      Except.ok { commondirOutside := true, snowFileContents := some cd, commondir := cd }
  | none =>
      Except.ok { commondirOutside := false, snowFileContents := none,
                  commondir := nodeJoin2 workdir ['.', 's', 'n', 'o', 'w'] }

/-! ### Claims C3 and C4 (counterexamples and C4's amended theorem;
C3's amended idempotence theorem follows after its lemmas) -/

/-- Claim C3 counterexample: `normalize` is not idempotent.  The input
`"./"` normalizes to `"."` (the early special case only catches a
literal `"."` input), and normalizing again yields `""`. -/
theorem normalize_idem_counterexample :
    normalize ['.', '/'] = ['.'] ∧
    normalize (normalize ['.', '/']) = [] ∧
    normalize (normalize ['.', '/']) ≠ normalize ['.', '/'] := by decide

/-- Claim C3 (amended): `normalize` is idempotent for every backslash-free
path whose normalization is not `"."` — inputs such as `"./"` or `"a/.."`
normalize to `"."`, which a second `normalize` maps to `""` (only a
literal `"."` input is special-cased), and inputs containing backslashes
may denormalize again because backslashes are rewritten to `'/'` only
after platform normalization.  The special values hold:
`normalize("") = normalize(".") = ""` and `normalize("/") = "/"`; and for
backslash-free input the result never ends in a separator unless it is
the bare root. -/
theorem normalize_amended :
    (∀ p : PathStr, '\\' ∉ p → normalize p ≠ ['.'] →
        normalize (normalize p) = normalize p) ∧
    normalize [] = [] ∧ normalize ['.'] = [] ∧ normalize ['/'] = ['/'] ∧
    (∀ p : PathStr, '\\' ∉ p → normalize p ≠ ['/'] →
        (normalize p).getLast? ≠ some '/') :=
  ⟨fun p h1 h2 => (normalize_fix p h1).1 h2, by decide, by decide, by decide,
   fun p h1 h2 => (normalize_fix p h1).2 h2⟩

/-- Witness for C3 (amended) at `"a/b/"`. -/
theorem normalize_amended_witness :
    ('\\' ∉ ("a/b/".data) ∧ normalize ("a/b/".data) ≠ ['.']) ∧
    normalize (normalize ("a/b/".data)) = normalize ("a/b/".data) :=
  ⟨⟨by decide, by decide⟩, normalize_amended.1 _ (by decide) (by decide)⟩

/-- Claim C4 counterexample: with `workdir = "/a"` and
`opts.commondir = "/a/b"`, the commondir is not a prefix of the workdir,
yet `initExt` fails: the source checks the opposite direction (the
workdir being a prefix of the commondir). -/
theorem initExtSetup_prefix_counterexample :
    List.isPrefixOf ("/a/b".data) ("/a".data) = false ∧
    initExtSetup ("/a".data) (some ("/a/b".data)) =
      Except.error "commondir must be outside repository" := by decide

/-- Claim C4 (amended): `initExt(workdir, opts)` fails exactly when
`opts.commondir` is supplied and `properNormalize(workdir)` is a string
prefix of `properNormalize(opts.commondir)` — i.e. when the commondir
lies inside the workdir, not the other way around.  When it does not
fail and the commondir is external, `<workdir>/.snow` is written as a
file whose contents are the commondir path; otherwise `opts.commondir`
is set to `join(workdir, '.snow')`. -/
theorem initExtSetup_amended (workdir : PathStr) (cdo : Option PathStr) :
    (∀ cd, cdo = some cd →
      (((properNormalize workdir).isPrefixOf (properNormalize cd)) = true ↔
        initExtSetup workdir cdo = Except.error "commondir must be outside repository") ∧
      (((properNormalize workdir).isPrefixOf (properNormalize cd)) = false →
        initExtSetup workdir cdo = Except.ok
          { commondirOutside := true, snowFileContents := some cd, commondir := cd })) ∧
    (cdo = none →
      initExtSetup workdir cdo = Except.ok
        { commondirOutside := false, snowFileContents := none,
          commondir := nodeJoin2 workdir ['.', 's', 'n', 'o', 'w'] }) := by
  constructor
  · rintro cd rfl
    constructor
    · constructor
      · intro hpre
        simp [initExtSetup, hpre]
      · intro herr
        by_contra hpre
        simp only [Bool.not_eq_true] at hpre
        simp [initExtSetup, hpre] at herr
    · intro hpre
      simp [initExtSetup, hpre]
  · rintro rfl
    rfl

/-- Witness for C4 (amended) at `workdir = "/w"`, `commondir = "/x"`. -/
theorem initExtSetup_amended_witness :
    List.isPrefixOf (properNormalize "/w".data) (properNormalize "/x".data) = false ∧
    initExtSetup "/w".data (some "/x".data) =
      Except.ok ⟨true, some "/x".data, "/x".data⟩ :=
  ⟨by decide, ((initExtSetup_amended "/w".data (some "/x".data)).1 _ rfl).2 (by decide)⟩

/-! ## Ignore matcher (src/ignore.ts)

The repository contains two `IgnoreManager` implementations: the
regex-based one in src/ignore.ts (imported by src/repository.ts), which
keeps a parallel `includes` set fed by lines with a leading `'!'` and
matches with plain case-sensitive `RegExp`s, and a glob-based one
(`part_001`) that delegates everything to `micromatch` with
`dot`/`nocase` and keeps no include set.  The claim's negation structure
exists only in the regex-based matcher, which is embedded here.  JS
`RegExp` execution is a parameter `rex` (pattern, path ↦ matched); for
concrete evaluation `plainRexec` models unanchored `RegExp` search for
patterns without metacharacters. -/

/-- Model of JS `String.prototype.trim`. -/
def jsTrim (s : List Char) : List Char :=
  ((s.dropWhile Char.isWhitespace).reverse.dropWhile Char.isWhitespace).reverse

/-- Scan for the earliest closing `*/`, returning the suffix after it. -/
def findClose : List Char → Option (List Char)
  | [] => none
  | c :: cs =>
    if c = '*' ∧ cs.take 1 = ['/'] then some (cs.drop 1)
    else findClose cs

theorem findClose_length : ∀ (cs after : List Char),
    findClose cs = some after → after.length < cs.length := by
  intro cs
  induction cs with
  | nil => intro a h; cases h
  | cons c cs ih =>
    intro a h
    simp only [findClose] at h
    split_ifs at h with hcond
    · obtain rfl := Option.some.inj h
      simp
      omega
    · exact Nat.lt_trans (ih a h) (by simp)

/-- Embedding of the comment-stripping regex replace
`line.replace(/\/\*[\s\S]*?\*\/|\/\/.*/g, '')`: at each position, a
non-greedy block comment is removed if one opens and closes there,
otherwise a line comment `//` removes the rest of the line.  The fuel
argument (any bound above the input length) only makes the recursion
structural; every step strictly shrinks the input. -/
def stripCommentsFuel : Nat → List Char → List Char
  | 0, _ => []
  | fuel + 1, cs =>
    match cs with
    | '/' :: '*' :: rest =>
      match findClose rest with
      | some after => stripCommentsFuel fuel after
      | none => '/' :: stripCommentsFuel fuel ('*' :: rest)
    | '/' :: '/' :: _ => []
    | c :: rest => c :: stripCommentsFuel fuel rest
    | [] => []

/-- `stripCommentsFuel` with enough fuel for the whole input. -/
def stripComments (cs : List Char) : List Char :=
  stripCommentsFuel (cs.length + 1) cs

/-- JS `line.replace(first, b)` for a single-character search string:
replace the first occurrence of `a` by `b`. -/
def replaceFirstChar (a : Char) (b : List Char) : List Char → List Char
  | [] => []
  | c :: cs => if c = a then b ++ cs else c :: replaceFirstChar a b cs

/-- The two pattern lists held by the regex-based `IgnoreManager`:
`ignores` from plain lines, `includes` from lines with a leading `'!'`.
Patterns are the `regexStr` strings handed to `new RegExp(...)`. -/
structure IgnState where
  ignores : List (List Char)
  includes : List (List Char)
  deriving Repr, DecidableEq

/-- One accumulation step per file line, mirroring `IgnoreManager.init`:
trim; skip empty lines and lines starting with `//`; strip comments;
replace the first backslash by `'/'`; detect and strip a leading `'!'`;
replace the first `'*'` by the class `[\w/]*`; an invalid regex
(`rexValid` models `new RegExp` throwing) aborts with the failure
`Result`. -/
def ignoreInitLoop (rexValid : List Char → Bool) :
    List (List Char) → IgnState → Except (List Char) IgnState
  | [], st => Except.ok st
  | line :: rest, st =>
    let t := jsTrim line
    if t.length > 0 ∧ ¬ (t.take 2 = ['/', '/']) then
      let t1 := stripComments t
      let t2 := replaceFirstChar '\\' ['/'] t1
      let isNeg := t2.take 1 = ['!']
      let t3 := if isNeg then t2.drop 1 else t2
      let regexStr := replaceFirstChar '*' ['[', '\\', 'w', '/', ']', '*'] t3
      if rexValid regexStr then
        if isNeg then
          ignoreInitLoop rexValid rest { st with includes := st.includes ++ [regexStr] }
        else
          ignoreInitLoop rexValid rest { st with ignores := st.ignores ++ [regexStr] }
      else Except.error regexStr
    else ignoreInitLoop rexValid rest st

/-- Embedding of `IgnoreManager.init` over the ignore file's lines:
both pattern lists start empty. -/
def ignoreInit (rexValid : List Char → Bool) (lines : List (List Char)) :
    Except (List Char) IgnState :=
  ignoreInitLoop rexValid lines ⟨[], []⟩

/-- Embedding of the `IgnoreManager.ignored` loop: for each ignore
pattern that matches, the path is kept if some include pattern also
matches, else `true` is returned; if no ignore pattern matches the
result is `false`.  `rex pat p` abstracts `new RegExp(pat).exec(p)`
returning a match. -/
def ignoredLoop (rex : List Char → List Char → Bool)
    (includes : List (List Char)) (p : List Char) : List (List Char) → Bool
  | [] => false
  | ig :: rest =>
    if rex ig p then
      if includes.any (fun inc => rex inc p) then ignoredLoop rex includes p rest
      else true
    else ignoredLoop rex includes p rest

/-- Embedding of `IgnoreManager.ignored`. -/
def ignoreIgnored (rex : List Char → List Char → Bool) (st : IgnState)
    (p : List Char) : Bool :=
  ignoredLoop rex st.includes p st.ignores

/-- Model of JS `RegExp` unanchored search for patterns that contain no
regex metacharacters: such a pattern matches a path iff it occurs in it
as a substring (case-sensitively). -/
def plainRexec : List Char → List Char → Bool
  | pat, [] => pat.isEmpty
  | pat, c :: rest => pat.isPrefixOf (c :: rest) || plainRexec pat rest

/-- Modelled from the spec: case-insensitive, dotfile-aware glob
matching (`micromatch` with `dot: true, nocase: true`), used to state
the claim's spec-side matching predicate.  `**` crosses separators, `*`
and `?` stay within a segment, everything else matches up to case. -/
def globMatchFuel : Nat → List Char → List Char → Bool
  | 0, _, _ => false
  | fuel + 1, pat, s =>
    match pat, s with
    | [], s => s.isEmpty
    | '*' :: '*' :: ps, s =>
      globMatchFuel fuel ps s ||
        (match s with
         | [] => false
         | _ :: s2 => globMatchFuel fuel ('*' :: '*' :: ps) s2)
    | '*' :: ps, s =>
      globMatchFuel fuel ps s ||
        (match s with
         | [] => false
         | c :: s2 => if c = '/' then false else globMatchFuel fuel ('*' :: ps) s2)
    | '?' :: ps, s =>
      (match s with
       | [] => false
       | c :: s2 => (c != '/') && globMatchFuel fuel ps s2)
    | c :: ps, s =>
      (match s with
       | [] => false
       | d :: s2 => (c.toLower == d.toLower) && globMatchFuel fuel ps s2)

/-- `globMatchFuel` with enough fuel (the recursion strictly shrinks
`pat.length + s.length`). -/
def globMatch (pat s : List Char) : Bool :=
  globMatchFuel (pat.length + s.length + 1) pat s

/-- Modelled from the spec: the claim's matching predicate — ignored iff
some ignore pattern matches under case-insensitive dotfile-aware
globbing and no include pattern matches. -/
def specIgnoredCI (ignorePats includePats : List (List Char)) (p : List Char) : Bool :=
  (ignorePats.any fun pat => globMatch pat p) &&
  !(includePats.any fun pat => globMatch pat p)

/-! ### Claim C7 -/

/-- Claim C7 counterexample: for an ignore file containing the single
line `foo` (so the manager holds the single ignore regex `/foo/` and no
includes), the path `FOO` matches under case-insensitive globbing — the
claim says it is ignored — but the regex-based matcher is
case-sensitive, so `ignored("FOO")` is `false`. -/
theorem ignored_counterexample :
    ignoreInit (fun _ => true) [['f', 'o', 'o']] =
      Except.ok ⟨[['f', 'o', 'o']], []⟩ ∧
    specIgnoredCI [['f', 'o', 'o']] [] ['F', 'O', 'O'] = true ∧
    ignoreIgnored plainRexec ⟨[['f', 'o', 'o']], []⟩ ['F', 'O', 'O'] = false := by
  decide

/-- Claim C7 (amended): for any regex-execution semantics `rex`, the
matcher's `ignored(p)` returns `true` iff `p` matches at least one
ignore pattern and no include pattern (derived from a line with a single
leading `'!'`) matches `p`.  Matching is plain case-sensitive `RegExp`
search, not case-insensitive dotfile-aware globbing. -/
theorem ignored_amended (rex : List Char → List Char → Bool) (st : IgnState)
    (p : List Char) :
    ignoreIgnored rex st p =
      ((st.ignores.any fun ig => rex ig p) &&
        !(st.includes.any fun inc => rex inc p)) := by
  unfold ignoreIgnored
  induction st.ignores with
  | nil => simp [ignoredLoop]
  | cons ig rest ih =>
    by_cases hig : rex ig p
    · by_cases hinc : st.includes.any (fun inc => rex inc p)
      · simp [ignoredLoop, hig, hinc, ih]
      · simp [ignoredLoop, hig, hinc]
    · simp [ignoredLoop, hig, ih]

/-! ## Repository model (src/repository.ts)

The `Commit`, `Reference`, `Index`, tree and object-database modules are
repository code not under src/ (only src/repository.ts uses them); their
data is modelled from the spec (§3 data model, §4.E object-store
contract, §4.F index).  The `Repository` methods themselves are embedded
from src/repository.ts.  JS `Map` objects are association lists with
`Map.get`/`Map.set` semantics; JS `undefined`/`null` are `Option`. -/

/-- Modelled from the spec: a `TreeFile` as seen through
`TreeDir.getAllTreeFiles` — relative path, content hash and stat data. -/
structure TreeFile where
  path : String
  hash : String
  size : Nat
  mtime : Nat
  ctime : Nat
  deriving Repr, DecidableEq

/-- Modelled from the spec: a `Commit`.  `parent` is the JS array of
parent hashes, possibly missing and possibly holding `null` entries (the
first commit is created with `parents = [null]`); `root` is the commit
tree viewed as its list of files. -/
structure Commit where
  hash : String
  message : String
  parent : Option (List (Option String))
  root : List TreeFile
  deriving Repr, DecidableEq

/-- Modelled from the spec: a `Reference` (`type` 0 is BRANCH).  `hash`
is optional because HEAD is created with `hash: undefined`. -/
structure Reference where
  rtype : Nat
  name : String
  hash : Option String
  start : Option String
  deriving Repr, DecidableEq

/-- Modelled from the spec: a `FileInfo` produced by hashing. -/
structure FileInfo where
  hash : String
  size : Nat
  mtime : Nat
  ctime : Nat
  deriving Repr, DecidableEq

/-- Modelled from the spec: an `Index` — add/delete intents and the
processed file map. -/
structure Index where
  addRelPaths : List String
  deleteRelPaths : List String
  processedMap : List (String × FileInfo)
  valid : Bool
  deriving Repr, DecidableEq

/-- The in-memory `Repository` state used by the embedded methods. -/
structure RepoState where
  commits : List Commit
  commitMap : List (String × Commit)
  references : List Reference
  head : Reference
  deriving Repr, DecidableEq

/-- JS `Map.get` with a possibly-undefined key. -/
def mapGet {α : Type} (m : List (String × α)) (k : Option String) : Option α :=
  match k with
  | none => none
  | some k => (m.find? (fun e => e.1 == k)).map (fun e => e.2)

/-- JS `Map.set`: update in place if the key exists, else append. -/
def mapSet {α : Type} (m : List (String × α)) (k : String) (v : α) :
    List (String × α) :=
  if m.any (fun e => e.1 == k) then
    m.map (fun e => if e.1 == k then (k, v) else e)
  else m ++ [(k, v)]

/-- The error kinds thrown by the embedded repository methods, matching
the source's `throw new Error(...)` sites. -/
inductive SnowError
  /-- `invalid commit-hash '...'` -/
  | invalidHashSyntax
  /-- `commit ... has no parent` -/
  | noParent
  /-- `commit hash '...' out of history` -/
  | outOfHistory
  /-- `more than one ref found for ...` -/
  | moreThanOneRef
  /-- `unknown target version` -/
  | unknownTarget
  /-- `nothing to commit (create/copy files and use "snow add" to track)` -/
  | nothingToCommit
  /-- a JS `TypeError` from reading a member of `undefined` -/
  | typeError
  /-- an internal consistency throw (file in a diff but not in the map) -/
  | internalError
  deriving Repr, DecidableEq

/-- Split on `'~'`, as `hash.split('~')` does. -/
def splitTilde : List Char → List (List Char)
  | [] => [[]]
  | c :: cs =>
    if c = '~' then [] :: splitTilde cs
    else
      match splitTilde cs with
      | [] => [[c]]
      | s :: rest => (c :: s) :: rest

/-- Model of JS `parseInt(s, 10)`: trim leading whitespace, an optional
sign, then the longest leading digit run; `NaN` (here `none`) when no
digit follows. -/
def digitsVal (ds : List Char) : Nat :=
  ds.foldl (fun acc c => acc * 10 + (c.toNat - 48)) 0

def parseIntCore (l : List Char) : Option Nat :=
  let ds := l.takeWhile Char.isDigit
  if ds.isEmpty then none else some (digitsVal ds)

def jsParseInt (s : List Char) : Option Int :=
  match s.dropWhile Char.isWhitespace with
  | '-' :: rest => (parseIntCore rest).map (fun n => -(n : Int))
  | '+' :: rest => (parseIntCore rest).map (fun n => (n : Int))
  | rest => (parseIntCore rest).map (fun n => (n : Int))

/-- One step along the first parent, as in the body of
`findCommitByHash`'s walk: a missing or empty parent list throws
`commit ... has no parent`; a first parent absent from `commitMap`
(including the first commit's `null` parent) throws `out of history`. -/
def walkStep (st : RepoState) (c : Commit) : Except SnowError Commit :=
  match c.parent with
  | none => Except.error SnowError.noParent
  | some [] => Except.error SnowError.noParent
  | some (p0 :: _) =>
    match mapGet st.commitMap p0 with
    | none => Except.error SnowError.outOfHistory
    | some c2 => Except.ok c2

/-- Walk the first-parent chain `n` times. -/
def walkParents (st : RepoState) : Nat → Commit → Except SnowError Commit
  | 0, c => Except.ok c
  | n + 1, c => (walkStep st c).bind (walkParents st n)

/-- One loop iteration of `findCommitByHash` over a `'~'`-separated
segment: `HEAD` re-seeds the walk from the HEAD commit; any other
segment is skipped while no commit is in hand, and otherwise parsed with
`parseInt` (`NaN` throws `invalid commit-hash`) and walked — a negative
parse walks zero times, since the `for` loop body never runs. -/
def ancestorStep (st : RepoState) (commit : Option Commit) (idx : List Char) :
    Except SnowError (Option Commit) :=
  if idx = "HEAD".data then Except.ok (mapGet st.commitMap st.head.hash)
  else
    match commit with
    | none => Except.ok none
    | some c =>
      match jsParseInt idx with
      | none => Except.error SnowError.invalidHashSyntax
      | some n => (walkParents st n.toNat c).map some

/-- Embedding of `Repository.findCommitByHash`: a hash containing `'~'`
is processed segment by segment; a plain hash is a `commitMap` lookup
(`null` result for a miss). -/
def findCommitByHash (st : RepoState) (hash : String) : Except SnowError (Option Commit) :=
  let hashSplit := splitTilde hash.data
  if hashSplit.length > 1 then
    hashSplit.foldlM (ancestorStep st) none
  else
    Except.ok (mapGet st.commitMap (some hash))

/-- Embedding of `findReferenceByName` (clone = value copy). -/
def findReferenceByName (st : RepoState) (rtype : Nat) (refName : String) :
    Option Reference :=
  st.references.find? (fun r => r.name == refName && r.rtype == rtype)

/-- Embedding of `filterReferenceByHash`. -/
def filterReferenceByHash (st : RepoState) (hash : String) : List Reference :=
  st.references.filter (fun r => r.hash == some hash)

/-- The three runtime shapes of `checkout`'s `target` argument. -/
inductive CheckoutTarget
  | str (s : String)
  | ref (r : Reference)
  | commit (c : Commit)

/-- `findCommitByHash(x)` where `x` may be JS `undefined` (calling
`split` on `undefined` throws a `TypeError`). -/
def findCommitByHashJs (st : RepoState) (h : Option String) :
    Except SnowError (Option Commit) :=
  match h with
  | none => Except.error SnowError.typeError
  | some s => findCommitByHash st s

/-- Embedding of `checkout`'s target resolution (the
`(targetCommit, targetRef?)` computation): a string target is tried as a
reference name, then as a hash carried by existing references — where
two or more matching references throw `more than one ref found` — then
as a commit hash; `Reference` and `Commit` targets resolve directly,
a `Commit` picking up a `targetRef` only when exactly one reference
carries its hash. -/
def resolveTargetRaw (st : RepoState) (t : CheckoutTarget) :
    Except SnowError (Option Commit × Option Reference) :=
  match t with
  | CheckoutTarget.str target =>
    match findReferenceByName st 0 target with
    | some ref => (findCommitByHashJs st ref.hash).map (fun c => (c, some ref))
    | none =>
      match filterReferenceByHash st target with
      | [] => (findCommitByHash st target).map (fun c => (c, none))
      | [r] => (findCommitByHashJs st r.hash).map (fun c => (c, some r))
      | _ => Except.error SnowError.moreThanOneRef
  | CheckoutTarget.ref r => (findCommitByHashJs st r.hash).map (fun c => (c, some r))
  | CheckoutTarget.commit c =>
    match filterReferenceByHash st c.hash with
    | [r] => Except.ok (some c, some r)
    | _ => Except.ok (some c, none)

/-- Target resolution including the final `unknown target version`
check. -/
def resolveTarget (st : RepoState) (t : CheckoutTarget) :
    Except SnowError (Commit × Option Reference) :=
  match resolveTargetRaw st t with
  | Except.error e => Except.error e
  | Except.ok (none, _) => Except.error SnowError.unknownTarget
  | Except.ok (some c, r) => Except.ok (c, r)

/-! ### Claims C8 and C5 -/

/-- The amended claim's clean ancestor walk: process the segments after
`HEAD` left to right; a segment `parseInt` cannot parse raises `invalid
commit-hash`; a segment parsing to `n` walks the first parent
`max(n, 0)` times, failing as soon as a step leaves history. -/
def specResolve (st : RepoState) (c : Commit) :
    List (List Char) → Except SnowError Commit
  | [] => Except.ok c
  | seg :: rest =>
    match jsParseInt seg with
    | none => Except.error SnowError.invalidHashSyntax
    | some n => (walkParents st n.toNat c).bind (fun c2 => specResolve st c2 rest)

theorem walkParents_add (st : RepoState) (m n : Nat) :
    ∀ c, walkParents st (m + n) c =
      (walkParents st m c).bind (walkParents st n) := by
  induction m with
  | zero =>
    intro c
    rw [Nat.zero_add]
    rfl
  | succ m ih =>
    intro c
    rw [Nat.succ_add]
    simp only [walkParents]
    cases hws : walkStep st c with
    | error e => rfl
    | ok c2 =>
      show walkParents st (m + n) c2 = Except.bind (walkParents st m c2) _
      rw [ih c2]

theorem foldlM_ancestor_none (st : RepoState) (segs : List (List Char))
    (h : ∀ s ∈ segs, s ≠ "HEAD".data) :
    segs.foldlM (ancestorStep st) (none : Option Commit) = Except.ok none := by
  induction segs with
  | nil => rfl
  | cons s rest ih =>
    rw [List.foldlM_cons]
    have hstep : ancestorStep st none s = Except.ok none := by
      unfold ancestorStep
      rw [if_neg (h s (by simp))]
    rw [hstep]
    simpa using ih (fun t ht => h t (List.mem_cons_of_mem s ht))

theorem foldlM_ancestor_some (st : RepoState) (segs : List (List Char))
    (h : ∀ s ∈ segs, s ≠ "HEAD".data) :
    ∀ c, segs.foldlM (ancestorStep st) (some c) = (specResolve st c segs).map some := by
  induction segs with
  | nil => intro c; rfl
  | cons seg rest ih =>
    intro c
    rw [List.foldlM_cons]
    have hseg : seg ≠ "HEAD".data := h seg (by simp)
    have hrest : ∀ s ∈ rest, s ≠ "HEAD".data :=
      fun t ht => h t (List.mem_cons_of_mem seg ht)
    unfold ancestorStep
    rw [if_neg hseg]
    cases hp : jsParseInt seg with
    | none =>
      simp only [specResolve, hp]
      rfl
    | some n =>
      cases hw : walkParents st n.toNat c with
      | error e =>
        simp only [specResolve, hp, hw]
        rfl
      | ok c2 =>
        simp only [specResolve, hp, hw]
        show rest.foldlM (ancestorStep st) (some c2) = _
        rw [ih hrest c2]
        rfl

/-- The two-commit demonstration repository: `c2` (HEAD, on `Main`) on
top of the root commit `c1` whose parent list is `[null]`. -/
def demoC1 : Commit := { hash := "c1", message := "one", parent := some [none], root := [] }

def demoC2 : Commit := { hash := "c2", message := "two", parent := some [some "c1"], root := [] }

def demoRepo : RepoState :=
  { commits := [demoC1, demoC2],
    commitMap := [("c1", demoC1), ("c2", demoC2)],
    references := [{ rtype := 0, name := "Main", hash := some "c2", start := some "c1" }],
    head := { rtype := 0, name := "Main", hash := some "c2", start := none } }

/-- Claim C8 counterexample: the segment `-1` is not a non-negative
integer, yet `findCommitByHash("HEAD~-1")` does not raise
`InvalidHashSyntax` — `parseInt` parses `-1`, and the walk loop simply
runs zero times, returning the HEAD commit. -/
theorem findCommitByHash_negative_segment_counterexample :
    jsParseInt ("-1".data) = some (-1) ∧
    findCommitByHash demoRepo "HEAD~-1" = Except.ok (some demoC2) := by decide

/-- Claim C8 (amended): on an ancestor expression `HEAD~s1~…~sk`,
`findCommitByHash` processes the segments left to right from the HEAD
commit (returning `null` when HEAD's commit is absent): a segment whose
`parseInt` is `NaN` — such as `x` or an empty segment, but *not* `-1` or
`3x`, which parse — raises `InvalidHashSyntax`; a segment parsing to `n`
walks the first parent `max(n, 0)` times, raising `OutOfHistory` as soon
as a step walks past a root commit (`NoParent` when the commit has no
parent list at all); if every segment processes, the reached commit is
returned.  Walking is compositional: `m + n` steps are `m` steps then
`n` steps. -/
theorem findCommitByHash_amended (st : RepoState) (hash : String)
    (segs : List (List Char))
    (hsplit : splitTilde hash.data = "HEAD".data :: segs)
    (hne : segs ≠ [])
    (hnh : ∀ s ∈ segs, s ≠ "HEAD".data) :
    (findCommitByHash st hash =
      match mapGet st.commitMap st.head.hash with
      | none => Except.ok none
      | some c => (specResolve st c segs).map some) ∧
    (∀ m n : Nat, ∀ c, walkParents st (m + n) c =
      (walkParents st m c).bind (walkParents st n)) := by
  refine ⟨?_, fun m n c => walkParents_add st m n c⟩
  unfold findCommitByHash
  rw [hsplit]
  have hlen : ("HEAD".data :: segs).length > 1 := by
    simpa using List.length_pos.mpr hne
  rw [if_pos hlen, List.foldlM_cons]
  have hstep : ancestorStep st none ("HEAD".data) =
      Except.ok (mapGet st.commitMap st.head.hash) := by
    unfold ancestorStep
    rw [if_pos rfl]
  rw [hstep]
  cases hstart : mapGet st.commitMap st.head.hash with
  | none =>
    show segs.foldlM (ancestorStep st) none = _
    rw [foldlM_ancestor_none st segs hnh]
  | some c =>
    show segs.foldlM (ancestorStep st) (some c) = _
    rw [foldlM_ancestor_some st segs hnh c]

/-- Witness for C8 (amended): `HEAD~1` on the demonstration repository. -/
theorem findCommitByHash_amended_witness :
    (splitTilde ("HEAD~1".data) = "HEAD".data :: [['1']] ∧
     ([['1']] : List (List Char)) ≠ [] ∧
     ∀ s ∈ ([['1']] : List (List Char)), s ≠ "HEAD".data) ∧
    findCommitByHash demoRepo "HEAD~1" =
      (match mapGet demoRepo.commitMap demoRepo.head.hash with
       | none => Except.ok none
       | some c => (specResolve demoRepo c [['1']]).map some) :=
  ⟨⟨by decide, by decide, by decide⟩,
   (findCommitByHash_amended demoRepo "HEAD~1" [['1']]
     (by decide) (by decide) (by decide)).1⟩

/-- A repository in which two references (`A` and `B`) point at the same
commit hash `c1`. -/
def demoRefA : Reference := { rtype := 0, name := "A", hash := some "c1", start := some "c1" }

def demoRefB : Reference := { rtype := 0, name := "B", hash := some "c1", start := some "c1" }

def demoMultiRefRepo : RepoState :=
  { commits := [demoC1],
    commitMap := [("c1", demoC1)],
    references := [demoRefA, demoRefB],
    head := { rtype := 0, name := "A", hash := some "c1", start := none } }

/-- Claim C5 (code bug): checking out the raw hash `c1`, which is the
hash of the two existing references `A` and `B` (and of a commit in the
map), throws `more than one ref found` instead of resolving to the
commit with `targetRef` unset.  The code's own comment at this branch —
"If more than one ref is available we are in a detached HEAD" — and the
spec's boundary case describe the detached behaviour; the `throw` is the
slip. -/
theorem checkout_multi_ref_throws :
    filterReferenceByHash demoMultiRefRepo "c1" = [demoRefA, demoRefB] ∧
    mapGet demoMultiRefRepo.commitMap (some "c1") = some demoC1 ∧
    resolveTarget demoMultiRefRepo (CheckoutTarget.str "c1") =
      Except.error SnowError.moreThanOneRef := by decide

/-! ### Claim C6: the checkout mutation phase -/

/-- The `RESET` bitmask values. -/
def RESET_DELETE_MODIFIED : Nat := 1

def RESET_DELETE_NEW : Nat := 2

def RESET_RESTORE_DELETED : Nat := 4

def RESET_DETACH : Nat := 8

/-- The externally observable effects of `checkout` after target
resolution, in program order: the HEAD persistence
(`writeHeadRefToDisk`), moves to trash, re-materializations of deleted
files, overwrites of modified files, and the log append. -/
inductive CkEvent
  | persistHead (hash : Option String) (name : String)
  | trash (path : String)
  | restore (hash : String) (path : String)
  | overwrite (hash : String) (path : String)
  | writeLog
  deriving Repr, DecidableEq

/-- A working-tree mutation (trash, restore or overwrite). -/
def CkEvent.isMutation : CkEvent → Bool
  | CkEvent.trash _ => true
  | CkEvent.restore _ _ => true
  | CkEvent.overwrite _ _ => true
  | _ => false

/-- lodash `difference`: members of `a` not in `b`, in order. -/
def lodashDifference (a b : List String) : List String :=
  a.filter (fun x => !(b.contains x))

/-- lodash `intersection`: unique members of `a` also in `b`. -/
def lodashIntersection (a b : List String) : List String :=
  (a.filter (fun x => b.contains x)).dedup

/-- Look a path up among the target commit's files
(`oldFilesMap.get`). -/
def treeFind (files : List TreeFile) (path : String) : Option TreeFile :=
  files.find? (fun f => f.path == path)

/-- The restore events for files deleted from the working tree; a path
missing from the map throws (`"file was detected as deleted but couldn't
be found in old commit either"`). -/
def restoreEventsOf (oldFiles : List TreeFile) (paths : List String) :
    Except SnowError (List CkEvent) :=
  paths.mapM fun p =>
    match treeFind oldFiles p with
    | some f => Except.ok (CkEvent.restore f.hash p)
    | none => Except.error SnowError.internalError

/-- The files submitted to `isFileModified`; a path missing from the map
throws. -/
def modFilesOf (oldFiles : List TreeFile) (paths : List String) :
    Except SnowError (List TreeFile) :=
  paths.mapM fun p =>
    match treeFind oldFiles p with
    | some f => Except.ok f
    | none => Except.error SnowError.internalError

/-- Embedding of `checkout`'s post-resolution phase.  `items` are the
walked working-tree files as workdir-relative paths (`osWalk` composed
with `relative` is the out-of-scope walking primitive); `modified`
abstracts `TreeFile.isFileModified`.  When `head.hash` is null the first
promise callback returns early and the next callback iterates the
never-assigned `items` variable, throwing a `TypeError`.  Otherwise the
in-memory HEAD is updated (`DETACH` or a missing `targetRef` detaches
it) and persisted first; only then are the delete-new, restore-deleted
and overwrite-modified file operations issued, followed by the log
append. -/
def checkoutPhase (st : RepoState) (targetCommit : Commit)
    (targetRef : Option Reference) (reset : Nat) (items : List String)
    (modified : TreeFile → Bool) :
    Except SnowError (RepoState × List CkEvent) :=
  if st.head.hash = none then Except.error SnowError.typeError
  else
    let oldFiles := targetCommit.root
    let headName :=
      match targetRef with
      | none => "HEAD"
      | some r => if reset &&& RESET_DETACH ≠ 0 then "HEAD" else r.name
    let st1 := { st with
      head := { st.head with hash := some targetCommit.hash, name := headName } }
    let currentFiles := items
    let oldFilePaths := oldFiles.map (fun f => f.path)
    let trashEvents :=
      if reset &&& RESET_DELETE_NEW ≠ 0 then
        (lodashDifference currentFiles oldFilePaths).map CkEvent.trash
      else []
    let deletedFiles :=
      if reset &&& RESET_RESTORE_DELETED ≠ 0 then
        lodashDifference oldFilePaths currentFiles
      else []
    let existingFiles :=
      if reset &&& RESET_DELETE_MODIFIED ≠ 0 then
        lodashIntersection currentFiles oldFilePaths
      else []
    match restoreEventsOf oldFiles deletedFiles, modFilesOf oldFiles existingFiles with
    | Except.error e, _ => Except.error e
    | Except.ok _, Except.error e => Except.error e
    | Except.ok restoreEvents, Except.ok modFiles =>
      let overwriteEvents :=
        (modFiles.filter modified).map (fun f => CkEvent.overwrite f.hash f.path)
      Except.ok (st1,
        CkEvent.persistHead (some targetCommit.hash) headName ::
          (trashEvents ++ restoreEvents ++ overwriteEvents ++ [CkEvent.writeLog]))

/-- Claim C6: in every run of the checkout phase that reaches the
file-mutation phase (i.e. succeeds in issuing events), HEAD is updated
and persisted before any working-tree mutation: the persisted HEAD
carries `targetCommit.hash` and the name `"HEAD"` when `DETACH` is set
or no `targetRef` was resolved (else the target reference's name), and
every trash / restore / overwrite event is strictly preceded by that
HEAD persistence. -/
theorem checkout_head_persisted_before_mutation
    (st : RepoState) (tc : Commit) (tr : Option Reference) (reset : Nat)
    (items : List String) (modified : TreeFile → Bool)
    (st2 : RepoState) (evs : List CkEvent)
    (hok : checkoutPhase st tc tr reset items modified = Except.ok (st2, evs)) :
    st2.head.hash = some tc.hash ∧
    st2.head.name = (match tr with
      | none => "HEAD"
      | some r => if reset &&& RESET_DETACH ≠ 0 then "HEAD" else r.name) ∧
    (∀ i : Nat, ∀ e, evs.get? i = some e → e.isMutation = true →
      ∃ j : Nat, j < i ∧ evs.get? j =
        some (CkEvent.persistHead (some tc.hash) st2.head.name)) := by
  simp only [checkoutPhase] at hok
  split at hok
  · cases hok
  · split at hok
    · cases hok
    · cases hok
    · injection hok with hpair
      injection hpair with hst hevs
      subst hst
      subst hevs
      refine ⟨rfl, ?_, ?_⟩
      · cases tr with
        | none => rfl
        | some r => rfl
      intro i e hi hmut
      cases i with
      | zero =>
        rw [List.get?_cons_zero] at hi
        obtain rfl := Option.some.inj hi
        cases hmut
      | succ i =>
        exact ⟨0, Nat.succ_pos i, rfl⟩

/-- A target commit carrying one file, for the C6 witness run. -/
def demoTF : TreeFile := { path := "a.txt", hash := "h1", size := 1, mtime := 0, ctime := 0 }

def demoC3 : Commit :=
  { hash := "c3", message := "three", parent := some [some "c2"], root := [demoTF] }

def demoCheckoutSt2 : RepoState :=
  { demoRepo with head := { rtype := 0, name := "HEAD", hash := some "c3", start := none } }

def demoCheckoutEvs : List CkEvent :=
  [CkEvent.persistHead (some "c3") "HEAD", CkEvent.trash "b.txt",
   CkEvent.restore "h1" "a.txt", CkEvent.writeLog]

/-- Witness for C6: a concrete default-flag checkout run (trash one new
file, restore one deleted file), whose HEAD persistence precedes both
mutations. -/
theorem checkout_head_persisted_before_mutation_witness :
    (checkoutPhase demoRepo demoC3 none 7 ["b.txt"] (fun _ => true) =
      Except.ok (demoCheckoutSt2, demoCheckoutEvs)) ∧
    demoCheckoutSt2.head.hash = some demoC3.hash ∧
    demoCheckoutSt2.head.name = "HEAD" ∧
    (∀ i : Nat, ∀ e, demoCheckoutEvs.get? i = some e → e.isMutation = true →
      ∃ j : Nat, j < i ∧ demoCheckoutEvs.get? j =
        some (CkEvent.persistHead (some demoC3.hash) demoCheckoutSt2.head.name)) := by
  have hok : checkoutPhase demoRepo demoC3 none 7 ["b.txt"] (fun _ => true) =
      Except.ok (demoCheckoutSt2, demoCheckoutEvs) := by decide
  have h := checkout_head_persisted_before_mutation demoRepo demoC3 none 7
    ["b.txt"] (fun _ => true) demoCheckoutSt2 demoCheckoutEvs hok
  exact ⟨hok, h.1, h.2.1, h.2.2⟩

/-! ### Claim C9: `createCommit` -/

/-- Modelled from the spec: the persisted state behind the object-store
contract (§4.E) — commit records, reference records (name to hash), the
HEAD record, and the log. -/
structure Disk where
  commits : List Commit
  refs : List (String × Option String)
  headRef : Option (String × Option String)
  log : List String
  deriving Repr, DecidableEq

/-- Modelled from the spec: `Odb.writeCommit`. -/
def odbWriteCommit (d : Disk) (c : Commit) : Disk :=
  { d with commits := d.commits ++ [c] }

/-- Modelled from the spec: `Odb.writeReference` — writes the record
named after the reference. -/
def odbWriteReference (d : Disk) (r : Reference) : Disk :=
  { d with refs := mapSet d.refs r.name r.hash }

/-- Modelled from the spec: `Odb.writeHeadReference`. -/
def odbWriteHead (d : Disk) (r : Reference) : Disk :=
  { d with headRef := some (r.name, r.hash) }

/-- Modelled from the spec: the log append. -/
def odbWriteLog (d : Disk) (s : String) : Disk :=
  { d with log := d.log ++ [s] }

/-- Modelled from the spec: the out-of-scope `constructTree`
collaborator, which "builds a TreeDir from a mapping of relative paths
to FileInfo"; seen through `getAllTreeFiles`, the tree holds one
`TreeFile` per mapping entry. -/
def constructTree (processedMap : List (String × FileInfo)) : List TreeFile :=
  processedMap.map fun e =>
    { path := e.1, hash := e.2.hash, size := e.2.size,
      mtime := e.2.mtime, ctime := e.2.ctime }

/-- Modelled from the spec: `TreeDir.remove` drops the entry at the
given relative path. -/
def treeRemove (files : List TreeFile) (relPath : String) : List TreeFile :=
  files.filter (fun f => !(f.path == relPath))

/-- The body of `createCommit` once the index has been validated:
overlay the HEAD commit's files over the index's `processedMap` (a
missing HEAD commit makes `headCommit.root` throw a `TypeError`), build
the tree, apply the index's deletions, construct the commit (its
content-derived id is the abstracted `newHash`; `parents` is
`[head.hash]`, `null` before the first commit), register it in memory,
create the `Main` reference on the very first commit, advance HEAD, and
persist commit → HEAD record → reference record → log in order.  Index
invalidation and tag/userData attachment are not tracked. -/
def createCommitBody (st : RepoState) (disk : Disk) (idx : Index)
    (message : String) (newHash : String) :
    Except SnowError (RepoState × Disk × Commit) :=
  let withOverlay : Except SnowError (List (String × FileInfo)) :=
    match st.head.hash with
    | none => Except.ok idx.processedMap
    | some h =>
      match mapGet st.commitMap (some h) with
      | none => Except.error SnowError.typeError
      | some headCommit =>
        Except.ok (headCommit.root.foldl (fun m tf =>
          mapSet m tf.path
            { hash := tf.hash, size := tf.size, mtime := tf.mtime, ctime := tf.ctime })
          idx.processedMap)
  match withOverlay with
  | Except.error e => Except.error e
  | Except.ok pm =>
    let tree := idx.deleteRelPaths.foldl treeRemove (constructTree pm)
    let commit : Commit :=
      { hash := newHash, message := message, parent := some [st.head.hash], root := tree }
    let st1 := { st with
      commits := st.commits ++ [commit],
      commitMap := mapSet st.commitMap commit.hash commit }
    let st2 :=
      if st.head.hash ≠ none then
        { st1 with head := { st1.head with hash := some commit.hash } }
      else
        { st1 with
          head := { st1.head with name := "Main", hash := some commit.hash },
          references := st1.references ++
            [{ rtype := 0, name := "Main", hash := some commit.hash,
               start := some commit.hash }] }
    let disk1 := odbWriteCommit disk commit
    let st3 := { st2 with head := { st2.head with hash := some commit.hash } }
    let disk2 := odbWriteHead disk1 st3.head
    let disk3 := odbWriteReference disk2 st3.head
    let disk4 := odbWriteLog disk3 ("commit: " ++ message)
    Except.ok (st3, disk4, commit)

/-- Embedding of `Repository.createCommit`'s entry checks: with
`allowEmpty` a missing index is replaced by a fresh dummy; without it, a
missing index throws a `TypeError` when its fields are read, and an
index with no add and no delete intents throws `nothing to commit`. -/
def createCommit (st : RepoState) (disk : Disk) (index : Option Index)
    (message : String) (allowEmpty : Bool) (newHash : String) :
    Except SnowError (RepoState × Disk × Commit) :=
  if allowEmpty then
    let idx := index.getD
      { addRelPaths := [], deleteRelPaths := [], processedMap := [], valid := true }
    createCommitBody st disk idx message newHash
  else
    match index with
    | none => Except.error SnowError.typeError
    | some idx =>
      if idx.addRelPaths = [] ∧ idx.deleteRelPaths = [] then
        Except.error SnowError.nothingToCommit
      else createCommitBody st disk idx message newHash

theorem find?_mapSet_hit {α : Type} (m : List (String × α)) (k : String) (v : α)
    (hany : m.any (fun e => e.1 == k) = true) :
    ((m.map (fun e => if e.1 == k then (k, v) else e)).find?
      (fun e => e.1 == k)) = some (k, v) := by
  induction m with
  | nil => cases hany
  | cons e rest ih =>
    rw [List.map_cons]
    by_cases he : (e.1 == k) = true
    · rw [if_pos he, List.find?_cons]
      simp
    · have hrest : rest.any (fun e => e.1 == k) = true := by
        simpa [List.any_cons, he] using hany
      rw [if_neg he, List.find?_cons]
      have hb : (e.1 == k) = false := by simpa using he
      rw [hb]
      exact ih hrest

theorem mapGet_mapSet_self {α : Type} (m : List (String × α)) (k : String) (v : α) :
    mapGet (mapSet m k v) (some k) = some v := by
  show Option.map (fun e => e.2) ((mapSet m k v).find? (fun e => e.1 == k)) = some v
  unfold mapSet
  by_cases hany : m.any (fun e => e.1 == k) = true
  · rw [if_pos hany, find?_mapSet_hit m k v hany]
    rfl
  · rw [if_neg hany]
    have hnone : m.find? (fun e => e.1 == k) = none := by
      rw [List.find?_eq_none]
      intro x hx hpx
      exact hany (List.any_of_mem hx hpx)
    rw [List.find?_append, hnone, Option.none_or,
      List.find?_cons_of_pos _ (by simp)]
    rfl

theorem createCommitBody_ok (st : RepoState) (disk : Disk) (idx : Index)
    (message newHash : String) (st2 : RepoState) (disk2 : Disk) (c : Commit)
    (hok : createCommitBody st disk idx message newHash = Except.ok (st2, disk2, c)) :
    c.hash = newHash ∧ st2.head.hash = some newHash ∧
    mapGet disk2.refs (some st2.head.name) = some (some newHash) ∧
    disk2.headRef = some (st2.head.name, some newHash) ∧
    (st.head.hash = none → st2.head.name = "Main" ∧
      ({ rtype := 0, name := "Main", hash := some newHash,
         start := some newHash } : Reference) ∈ st2.references) := by
  simp only [createCommitBody] at hok
  split at hok
  · cases hok
  · injection hok with h3
    injection h3 with hst h4
    injection h4 with hdisk hc
    subst hst
    subst hdisk
    subst hc
    refine ⟨rfl, rfl, mapGet_mapSet_self _ _ _, rfl, ?_⟩
    intro hn
    constructor
    · simp [hn]
    · simp [hn]

/-- Claim C9: (a) if `opts.allowEmpty` is false and both
`index.addRelPaths` and `index.deleteRelPaths` are empty, `createCommit`
fails with `NothingToCommit` and no commit is created; (b) after every
successful `createCommit`, the new commit's hash is the content-derived
id, `HEAD.hash` equals it, the persisted reference record named after
the reference HEAD is attached to — and the persisted HEAD record —
carry the same hash, and on the very first commit a reference named
`"Main"` pointing at it is created and HEAD is attached to `"Main"`. -/
theorem createCommit_claims (st : RepoState) (disk : Disk) (index : Option Index)
    (message : String) (allowEmpty : Bool) (newHash : String) :
    (∀ idx, index = some idx → allowEmpty = false →
      idx.addRelPaths = [] → idx.deleteRelPaths = [] →
      createCommit st disk index message allowEmpty newHash =
        Except.error SnowError.nothingToCommit) ∧
    (∀ st2 disk2 c,
      createCommit st disk index message allowEmpty newHash =
        Except.ok (st2, disk2, c) →
      c.hash = newHash ∧
      st2.head.hash = some newHash ∧
      mapGet disk2.refs (some st2.head.name) = some (some newHash) ∧
      disk2.headRef = some (st2.head.name, some newHash) ∧
      (st.head.hash = none →
        st2.head.name = "Main" ∧
        ({ rtype := 0, name := "Main", hash := some newHash,
           start := some newHash } : Reference) ∈ st2.references)) := by
  constructor
  · rintro idx rfl rfl hadd hdel
    simp [createCommit, hadd, hdel]
  · intro st2 disk2 c hok
    have hbody : ∃ idx2, createCommitBody st disk idx2 message newHash =
        Except.ok (st2, disk2, c) := by
      unfold createCommit at hok
      by_cases hae : allowEmpty = true
      · rw [if_pos hae] at hok
        exact ⟨_, hok⟩
      · rw [if_neg hae] at hok
        cases index with
        | none => cases hok
        | some idx =>
          have hok2 : (if idx.addRelPaths = [] ∧ idx.deleteRelPaths = [] then
              Except.error SnowError.nothingToCommit
            else createCommitBody st disk idx message newHash) =
              Except.ok (st2, disk2, c) := hok
          by_cases hemp : idx.addRelPaths = [] ∧ idx.deleteRelPaths = []
          · rw [if_pos hemp] at hok2
            cases hok2
          · rw [if_neg hemp] at hok2
            exact ⟨idx, hok2⟩
    obtain ⟨idx2, hb⟩ := hbody
    exact createCommitBody_ok st disk idx2 message newHash st2 disk2 c hb

/-- The empty repository and empty store, as `initExt` starts from. -/
def demoEmptyRepo : RepoState :=
  { commits := [], commitMap := [], references := [],
    head := { rtype := 0, name := "HEAD", hash := none, start := none } }

def demoEmptyDisk : Disk := { commits := [], refs := [], headRef := none, log := [] }

/-- The records produced by the first commit of an empty repository. -/
def demoCommitMain : Commit :=
  { hash := "c1", message := "Created Project", parent := some [none], root := [] }

def demoRepoAfterInit : RepoState :=
  { commits := [demoCommitMain],
    commitMap := [("c1", demoCommitMain)],
    references := [{ rtype := 0, name := "Main", hash := some "c1", start := some "c1" }],
    head := { rtype := 0, name := "Main", hash := some "c1", start := none } }

def demoDiskAfterInit : Disk :=
  { commits := [demoCommitMain], refs := [("Main", some "c1")],
    headRef := some ("Main", some "c1"), log := ["commit: Created Project"] }

/-- Witness for C9 at the very first commit of an empty repository. -/
theorem createCommit_claims_witness :
    (createCommit demoEmptyRepo demoEmptyDisk none "Created Project" true "c1" =
      Except.ok (demoRepoAfterInit, demoDiskAfterInit, demoCommitMain)) ∧
    demoCommitMain.hash = "c1" ∧ demoRepoAfterInit.head.hash = some "c1" ∧
    demoRepoAfterInit.head.name = "Main" ∧
    ({ rtype := 0, name := "Main", hash := some "c1",
       start := some "c1" } : Reference) ∈ demoRepoAfterInit.references := by
  have hok : createCommit demoEmptyRepo demoEmptyDisk none "Created Project" true "c1" =
      Except.ok (demoRepoAfterInit, demoDiskAfterInit, demoCommitMain) := by decide
  have h := (createCommit_claims demoEmptyRepo demoEmptyDisk none "Created Project"
    true "c1").2 _ _ _ hok
  exact ⟨hok, h.1, h.2.1, (h.2.2.2.2 rfl).1, (h.2.2.2.2 rfl).2⟩

/-! ### Claim C10: `getStatus` -/

/-- The `FILTER` bitmask values. -/
def FILTER_INCLUDE_UNTRACKED : Nat := 1

def FILTER_INCLUDE_IGNORED : Nat := 2

def FILTER_INCLUDE_UNMODIFIED : Nat := 4

def FILTER_INCLUDE_DIRECTORIES : Nat := 8

/-- The `STATUS` bits used by `getStatus`. -/
def STATUS_WT_NEW : Nat := 128

def STATUS_WT_MODIFIED : Nat := 256

def STATUS_WT_DELETED : Nat := 512

/-- A `StatusEntry`: path, status bits (absent for directory entries,
whose constructor passes no `status`), directory flag. -/
structure StatusEntry where
  path : String
  status : Option Nat
  isdir : Bool
  deriving Repr, DecidableEq

/-- The source's `Result<T>` shape (`success`, `error`, `value`). -/
structure JsResult (α : Type) where
  success : Bool
  error : Option String
  value : Option α
  deriving Repr, DecidableEq

/-- Embedding of `Repository.getStatus`.  The function first awaits
`fse.pathExists(join(workdir, 'ignore'))` and, **only if the file
exists**, runs `IgnoreManager.init` — so when the file is absent the
awaited value `s` is JS `undefined` (`none` here), and reading
`s.success` throws a `TypeError` before the working tree is walked.
`items` are the walked entries as (relative path, isDirectory) pairs;
`initResult` is the init outcome when the ignore file exists; `ign` and
`rex` are the resulting matcher state and regex semantics; `modified`
abstracts `TreeFile.isFileModified`. -/
def getStatus (st : RepoState) (ignoreFileExists : Bool)
    (initResult : JsResult Unit) (ign : IgnState)
    (rex : List Char → List Char → Bool) (filter : Nat)
    (items : List (String × Bool)) (modified : TreeFile → Bool) :
    Except SnowError (JsResult (List StatusEntry)) :=
  let s : Option (JsResult Unit) :=
    if ignoreFileExists then some initResult else none
  match s with
  | none => Except.error SnowError.typeError
  | some s =>
    if s.success = false then
      Except.ok { success := s.success, error := s.error, value := none }
    else if st.head.hash = none then
      Except.ok { success := true, error := none, value := some [] }
    else
      let dirEntries :=
        if filter &&& FILTER_INCLUDE_DIRECTORIES ≠ 0 then
          (items.filter (fun it => it.2)).map
            (fun it => StatusEntry.mk it.1 none true)
        else []
      let currentFiles := (items.filter (fun it => !it.2)).map (fun it => it.1)
      let oldFiles :=
        match mapGet st.commitMap st.head.hash with
        | some c => c.root
        | none => []
      let oldFilePaths := oldFiles.map (fun f => f.path)
      let newEntries :=
        if filter &&& FILTER_INCLUDE_UNTRACKED ≠ 0 then
          (lodashDifference currentFiles oldFilePaths).filterMap (fun p =>
            if ignoreIgnored rex ign p.data then none
            else some (StatusEntry.mk p (some STATUS_WT_NEW) false))
        else []
      let deletedEntries :=
        (lodashDifference oldFilePaths currentFiles).filterMap (fun p =>
          if ignoreIgnored rex ign p.data then none
          else some (StatusEntry.mk p (some STATUS_WT_DELETED) false))
      match modFilesOf oldFiles (lodashIntersection currentFiles oldFilePaths) with
      | Except.error e => Except.error e
      | Except.ok existingFiles =>
        let modEntries := existingFiles.filterMap (fun f =>
          if modified f then
            if ignoreIgnored rex ign f.path.data then none
            else some (StatusEntry.mk f.path (some STATUS_WT_MODIFIED) false)
          else if filter &&& FILTER_INCLUDE_UNMODIFIED ≠ 0 then
            some (StatusEntry.mk f.path (some 0) false)
          else none)
        let out := dirEntries ++ newEntries ++ deletedEntries ++ modEntries
        Except.ok { success := true, error := none, value := some out }

/-- Claim C10: for every repository whose working directory does not
contain a file named `ignore`, `getStatus` does not return a status
result: the awaited existence check yields an `undefined` result object
whose `success` field is then read, so the operation fails with a
`TypeError` before the working tree is walked, regardless of the filter
flags, the walked entries, and everything else. -/
theorem getStatus_no_ignore_file_type_error (st : RepoState)
    (initResult : JsResult Unit) (ign : IgnState)
    (rex : List Char → List Char → Bool) (filter : Nat)
    (items : List (String × Bool)) (modified : TreeFile → Bool) :
    getStatus st false initResult ign rex filter items modified =
      Except.error SnowError.typeError := rfl

end SnowFS
